import Mathlib

/-!
Verification of the depup annotation-directed version-substitution engine.

This file is a shallow embedding of the Go sources under `internal/updater`
(`yaml_file_updater.go`, `hcl_file_updater.go`, `dotenv_file_updater.go`,
the package/pattern declarations and the orchestrating `Updater`).
Strings are modelled as `List Char`; each compiled regular expression of the
source is embedded as a deterministic matching function implementing RE2's
leftmost-first greedy semantics for that particular pattern; file I/O is
modelled by an explicit map from paths to file contents.
-/

namespace Depup

abbrev Chars := List Char

/-- A dependency package, from `Package` in the updater package:
name and requested version. -/
structure Package where
  name : Chars
  version : Chars
deriving DecidableEq, Repr

/-- Options for a file update, from `FileUpdaterOptions`. -/
structure FileUpdaterOptions where
  dryRun : Bool
deriving DecidableEq, Repr

/-- Character class of RE2's Perl `\s`: space, tab, newline, form feed,
carriage return. -/
def isWsChar (c : Char) : Bool :=
  c = ' ' || c = '\t' || c = '\n' || c = '\x0c' || c = '\r'

/-- Character class of Go's `unicode.IsSpace` restricted to ASCII (used by
`strings.TrimSpace`): `\s` plus vertical tab. -/
def goIsSpace (c : Char) : Bool :=
  c = ' ' || c = '\t' || c = '\n' || c = '\x0b' || c = '\x0c' || c = '\r'

/-- Character class `["']`. -/
def isQuoteChar (c : Char) : Bool :=
  c = '"' || c = '\''

/-- Character class `[0-9A-Za-z.-]` used by the prerelease and build parts
of `VersionPattern`. -/
def isSemverChar (c : Char) : Bool :=
  c.isAlphanum || c = '.' || c = '-'

/-- Character class `[a-zA-Z0-9-]` of `namePattern`. -/
def isNameChar (c : Char) : Bool :=
  c.isAlphanum || c = '-'

/-- Character class `[>=~<^]` of the constraint-stripping pattern in
`updateVersion`. -/
def isConstraintChar (c : Char) : Bool :=
  c = '>' || c = '=' || c = '~' || c = '<' || c = '^'

/-- Matching of one optional tail group of `VersionPattern` — prerelease
(`(?:-[0-9A-Za-z.-]+)?` for marker `-`) or build (`(?:\+[0-9A-Za-z.-]+)?`
for marker `+`) — anchored at the head: the consumed text (possibly empty)
and the rest. -/
def versionTail (marker : Char) (r5 : Chars) : Chars × Chars :=
  match r5 with
  | c :: r =>
    if c = marker then
      if r.takeWhile isSemverChar = [] then ([], r5)
      else (c :: r.takeWhile isSemverChar, r.dropWhile isSemverChar)
    else ([], r5)
  | [] => ([], r5)

/-- Matching of the version body `\d+\.\d+\.\d+(?:-[0-9A-Za-z.-]+)?(?:\+[0-9A-Za-z.-]+)?`
of `VersionPattern` anchored at the head of the input; returns the matched
text (group 2 of `VersionPattern`) and the rest.  The greedy runs are
deterministic: every part after each run is either a character the run's
class excludes or optional. -/
def matchVersionCore (s : Chars) : Option (Chars × Chars) :=
  let d1 := s.takeWhile Char.isDigit
  if d1 = [] then none else
  match s.dropWhile Char.isDigit with
  | c1 :: r2 =>
    if c1 ≠ '.' then none else
    let d2 := r2.takeWhile Char.isDigit
    if d2 = [] then none else
    (match r2.dropWhile Char.isDigit with
     | c2 :: r4 =>
       if c2 ≠ '.' then none else
       let d3 := r4.takeWhile Char.isDigit
       if d3 = [] then none else
       let r5 := r4.dropWhile Char.isDigit
       -- optional `-prerelease`
       let pr := versionTail '-' r5
       -- optional `+build`
       let bd := versionTail '+' pr.2
       some (d1 ++ '.' :: d2 ++ '.' :: d3 ++ pr.1 ++ bd.1, bd.2)
     | _ => none)
  | _ => none

/-- Matching of the whole `VersionPattern`
`(["']?)(\d+\.\d+\.\d+(?:-[0-9A-Za-z.-]+)?(?:\+[0-9A-Za-z.-]+)?)(["']?)`
anchored at the head of the input: returns the three capture groups
(start quote, version, end quote) and the rest of the input.  When the head
is a quote but no version body follows it, backtracking to the empty first
group cannot help, because the body must then start at the quote character,
which is not a digit. -/
def matchVersionAt (s : Chars) : Option (Chars × Chars × Chars × Chars) :=
  match s with
  | [] => none
  | c :: rest =>
    if isQuoteChar c then
      match matchVersionCore rest with
      | none => none
      | some (v, r) =>
        match r with
        | c2 :: r2 => if isQuoteChar c2 then some ([c], v, [c2], r2) else some ([c], v, [], r)
        | [] => some ([c], v, [], [])
    else
      match matchVersionCore s with
      | none => none
      | some (v, r) =>
        match r with
        | c2 :: r2 => if isQuoteChar c2 then some ([], v, [c2], r2) else some ([], v, [], r)
        | [] => some ([], v, [], [])

/-- Leftmost match of `VersionPattern` in a line
(`VersionPattern.FindStringSubmatch`): returns the text before the match,
the three capture groups and the text after the match, or `none` when the
pattern does not match anywhere. -/
def findVersionSub : Chars → Option (Chars × Chars × Chars × Chars × Chars)
  | [] => none
  | c :: rest =>
    match matchVersionAt (c :: rest) with
    | some (q1, v, q2, r) => some ([], q1, v, q2, r)
    | none =>
      match findVersionSub rest with
      | some (pre, q1, v, q2, r) => some (c :: pre, q1, v, q2, r)
      | none => none

/-- Stripping of a literal prefix; `none` when the input does not start
with it. -/
def chopPrefix : Chars → Chars → Option Chars
  | [], s => some s
  | _ :: _, [] => none
  | p :: ps, c :: cs => if p = c then chopPrefix ps cs else none

/-- Matching of `\s*depup\s+package=([^\s]+)` (the part of the annotation
comment patterns after the comment-start marker), anchored at the head:
returns the captured package name. -/
def parseDepupAfterMarker (r : Chars) : Option Chars :=
  match chopPrefix ['d', 'e', 'p', 'u', 'p'] (r.dropWhile isWsChar) with
  | none => none
  | some r2 =>
    if r2.takeWhile isWsChar = [] then none else
    match chopPrefix ['p', 'a', 'c', 'k', 'a', 'g', 'e', '='] (r2.dropWhile isWsChar) with
    | none => none
    | some r4 =>
      let name := r4.takeWhile (fun c => !isWsChar c)
      if name = [] then none else some name

/-- Leftmost match of the `#`-style annotation pattern
`#\s*depup\s+package=([^\s]+)` (`commentPattern.FindStringSubmatch`):
returns the captured package name of the first position at which the whole
pattern matches. -/
def findDepupHash : Chars → Option Chars
  | [] => none
  | c :: r =>
    if c = '#' then
      match parseDepupAfterMarker r with
      | some n => some n
      | none => findDepupHash r
    else findDepupHash r

/-- Leftmost match of the `//`-style annotation pattern
`//\s*depup\s+package=([^\s]+)` used by the HCL updater; a failed attempt at
a `//` marker advances the scan by one character, as RE2 does. -/
def findDepupSlash : Chars → Option Chars
  | [] => none
  | c :: r =>
    match chopPrefix ['/', '/'] (c :: r) with
    | some r2 =>
      (match parseDepupAfterMarker r2 with
       | some n => some n
       | none => findDepupSlash r)
    | none => findDepupSlash r

/-- Splitting of a line at the first position whose suffix satisfies `pred`:
the embedding of the lazy split regexes `(.*?)(\s*#.*)$` and
`(.*?)(\s*//.*)`, whose second group starts at the earliest position where
`\s*` followed by the comment marker matches and always extends to the end
of the line. -/
def findSplit (pred : Chars → Bool) : Chars → Option (Chars × Chars)
  | [] => if pred [] then some ([], []) else none
  | c :: r =>
    if pred (c :: r) then some ([], c :: r)
    else
      match findSplit pred r with
      | some (a, b) => some (c :: a, b)
      | none => none

/-- Whether a suffix starts the group `\s*#...`. -/
def startsWithHash (s : Chars) : Bool :=
  match s.dropWhile isWsChar with
  | c :: _ => c = '#'
  | [] => false

/-- Whether a suffix starts the group `\s*//...`. -/
def startsWithSlash (s : Chars) : Bool :=
  match s.dropWhile isWsChar with
  | c :: c2 :: _ => c = '/' && c2 = '/'
  | _ => false

/-- The split of a line into content and trailing comment performed by the
inline regex `(.*?)(\s*#.*)$`. -/
def splitAtHashComment : Chars → Option (Chars × Chars) :=
  findSplit startsWithHash

/-- The split of a line into content and trailing comment performed by the
HCL inline regex `(.*?)(\s*//.*)`. -/
def splitAtSlashComment : Chars → Option (Chars × Chars) :=
  findSplit startsWithSlash

/-- Dropping elements by a predicate never lengthens a list. -/
theorem length_dropWhile_le (p : Char → Bool) (l : Chars) :
    (l.dropWhile p).length ≤ l.length := by
  induction l with
  | nil => simp [List.dropWhile]
  | cons c r ih =>
    simp only [List.dropWhile]
    cases p c <;> simp only [List.length_cons] <;> omega

mutual

/-- Replacement of every match of `[>=~<^]+\s*` by the empty string
(`regexp.MustCompile(...).ReplaceAllString(currentVersion, "")` inside
`updateVersion`): each maximal run of constraint characters together with
the whitespace run following it is removed.  The three mutually recursive
functions are the states outside a match, inside the `[>=~<^]+` run and
inside the trailing `\s*` run. -/
def stripConstraints : Chars → Chars
  | [] => []
  | c :: r => if isConstraintChar c then stripCRun r else c :: stripConstraints r

/-- State of `stripConstraints` inside a `[>=~<^]+` run. -/
def stripCRun : Chars → Chars
  | [] => []
  | c :: r =>
    if isConstraintChar c then stripCRun r
    else if isWsChar c then stripWsRun r
    else c :: stripConstraints r

/-- State of `stripConstraints` inside the `\s*` run after a constraint
run; a constraint character here starts the next match. -/
def stripWsRun : Chars → Chars
  | [] => []
  | c :: r =>
    if isWsChar c then stripWsRun r
    else if isConstraintChar c then stripCRun r
    else c :: stripConstraints r

end

/-- Scanning part of `replaceFirst` for nonempty `old`. -/
def replaceFirstPos : Chars → Chars → Chars → Chars
  | [], _, _ => []
  | c :: r, old, new =>
    if old.isPrefixOf (c :: r) then new ++ (c :: r).drop old.length
    else c :: replaceFirstPos r old new

/-- Replacement of the first occurrence of `old` in `s` by `new`
(`strings.Replace(s, old, new, 1)`); `s` is returned unchanged when `old`
does not occur, and `new` is prepended when `old` is empty, as in Go. -/
def replaceFirst (s old new : Chars) : Chars :=
  if old = [] then new ++ s
  else replaceFirstPos s old new

/-- First package of the list whose name equals the given one: the search
loop at the head of `updateVersion` (and of `updateEnvValue`), which
returns on the first name match. -/
def lookupPackage (packageName : Chars) : List Package → Option Package
  | [] => none
  | pkg :: rest =>
    if pkg.name = packageName then some pkg else lookupPackage packageName rest

/-- The shared `updateVersion` of the YAML and HCL updaters: given the line,
the annotated package name, the requested packages and the capture groups of
the `VersionPattern` match on that line, either leave the line alone (no
name match, or normalized current version equal to the requested one) or
substitute quote + requested version + quote for the full matched text. -/
def updateVersion (line : Chars) (packageName : Chars) (packages : List Package)
    (q1 ver q2 : Chars) : Chars × Bool :=
  match lookupPackage packageName packages with
  | none => (line, false)
  | some pkg =>
    let cleanVersion := stripConstraints ver
    if cleanVersion = pkg.version then (line, false)
    else (replaceFirst line (q1 ++ ver ++ q2) (q1 ++ pkg.version ++ q2), true)

/-- The YAML updater's `processInlineDepupComment`: split the line at the
inline comment, read the annotation from the comment, find a version token
in the content before the comment, and substitute. -/
def yamlInline (line : Chars) (packages : List Package) : Chars × Bool :=
  match splitAtHashComment line with
  | none => (line, false)
  | some (lineContent, comment) =>
    match findDepupHash comment with
    | none => (line, false)
    | some packageName =>
      match findVersionSub lineContent with
      | none => (line, false)
      | some (_, q1, ver, q2, _) =>
        match updateVersion lineContent packageName packages q1 ver q2 with
        | (updatedContent, true) => (updatedContent ++ comment, true)
        | (_, false) => (line, false)

/-- The YAML updater's `processPreviousLineDepupComment`: read the
annotation from the previous line, find a version token anywhere in the
current line, and substitute. -/
def yamlPrev (prevLine currentLine : Chars) (packages : List Package) : Chars × Bool :=
  match findDepupHash prevLine with
  | none => (currentLine, false)
  | some packageName =>
    match findVersionSub currentLine with
    | none => (currentLine, false)
    | some (_, q1, ver, q2, _) =>
      match updateVersion currentLine packageName packages q1 ver q2 with
      | (updatedContent, true) => (updatedContent, true)
      | (_, false) => (currentLine, false)

/-- The HCL updater's annotation search over its two comment patterns, in
their fixed order (`#` style first, then `//` style); first match wins. -/
def hclFindName (s : Chars) : Option Chars :=
  match findDepupHash s with
  | some n => some n
  | none => findDepupSlash s

/-- One iteration of the loop in the HCL updater's
`processInlineDepupComment`, for one of the two inline comment split
regexes; `none` is the loop's `continue`. -/
def hclInlineStep (split : Chars → Option (Chars × Chars)) (line : Chars)
    (packages : List Package) : Option (Chars × Bool) :=
  match split line with
  | none => none
  | some (lineContent, comment) =>
    match hclFindName comment with
    | none => none
    | some packageName =>
      match findVersionSub lineContent with
      | none => none
      | some (_, q1, ver, q2, _) =>
        match updateVersion lineContent packageName packages q1 ver q2 with
        | (updatedContent, true) => some (updatedContent ++ comment, true)
        | (_, false) => none

/-- The HCL updater's `processInlineDepupComment`: the two split regexes are
tried in order (`#` style first), falling through on any failure. -/
def hclInline (line : Chars) (packages : List Package) : Chars × Bool :=
  match hclInlineStep splitAtHashComment line packages with
  | some res => res
  | none =>
    match hclInlineStep splitAtSlashComment line packages with
    | some res => res
    | none => (line, false)

/-- The HCL updater's `processPreviousLineDepupComment`. -/
def hclPrev (prevLine currentLine : Chars) (packages : List Package) : Chars × Bool :=
  match hclFindName prevLine with
  | none => (currentLine, false)
  | some packageName =>
    match findVersionSub currentLine with
    | none => (currentLine, false)
    | some (_, q1, ver, q2, _) =>
      match updateVersion currentLine packageName packages q1 ver q2 with
      | (updatedContent, true) => (updatedContent, true)
      | (_, false) => (currentLine, false)

/-- The strict numeric component `0|[1-9]\d*` of the semantic-version
pattern `versionPattern`: `0` alone or a nonzero-led digit run; returns the
rest of the input.  Leftmost-first alternation: at a leading `0` only the
first branch can apply, and shortening a greedy nonzero-led run never helps
because the run is followed by a non-digit. -/
def strictNum : Chars → Option Chars
  | [] => none
  | '0' :: r => some r
  | c :: r => if '1' ≤ c && c ≤ '9' then some (r.dropWhile Char.isDigit) else none

/-- Whether the mandatory part `(0|[1-9]\d*)\.(0|[1-9]\d*)\.(0|[1-9]\d*)` of
`versionPattern` matches at the head of the input.  Every later group of
`versionPattern` (prerelease, build metadata, closing quote) is optional, as
is the opening quote, so the full unanchored pattern has a match somewhere
in a string exactly when this mandatory part matches at some position. -/
def strictCoreAt (s : Chars) : Bool :=
  match strictNum s with
  | some ('.' :: r1) =>
    (match strictNum r1 with
     | some ('.' :: r2) => (strictNum r2).isSome
     | _ => false)
  | _ => false

/-- `versionPattern.MatchString`: whether the strict semantic-version
pattern matches anywhere in the string (the pattern is not anchored). -/
def strictMatch : Chars → Bool
  | [] => false
  | c :: r => strictCoreAt (c :: r) || strictMatch r

/-- The guard at the head of the dotenv updater's line processors:
`strings.TrimSpace(line) == "" || strings.TrimSpace(line)[0] == '#'`.
Trimming the right end cannot change emptiness or the first character, so
only the left trim is relevant. -/
def dotenvIsBlankOrComment (line : Chars) : Bool :=
  match line.dropWhile goIsSpace with
  | [] => true
  | c :: _ => c = '#'

/-- The dotenv key/value split `^([^=]+)(=)(.*)$`: the key is the (required
nonempty) run before the first `=`, the value everything after it. -/
def splitKeyValue (content : Chars) : Option (Chars × Chars) :=
  let key := content.takeWhile (fun c => c ≠ '=')
  if key = [] then none else
  match content.dropWhile (fun c => c ≠ '=') with
  | c :: value => if c = '=' then some (key, value) else none
  | [] => none

/-- The dotenv quoted-value split `^(\s*)(['"])(.*?)(['"])(.*)$`: leading
whitespace, an opening quote, the lazily matched inner text up to the first
following quote character of either kind, that quote, and the rest. -/
def quotedValueSplit (value : Chars) : Option (Chars × Char × Chars × Char × Chars) :=
  let lead := value.takeWhile isWsChar
  match value.dropWhile isWsChar with
  | [] => none
  | q1 :: rest =>
    if isQuoteChar q1 then
      match rest.dropWhile (fun c => !isQuoteChar c) with
      | q2 :: trail => some (lead, q1, rest.takeWhile (fun c => !isQuoteChar c), q2, trail)
      | [] => none
    else none

/-- The dotenv unquoted-value split `^(\s*)([^\s]+)(.*)$`: leading
whitespace, the first maximal non-whitespace token, and the rest. -/
def spaceVersionSplit (value : Chars) : Option (Chars × Chars × Chars) :=
  let lead := value.takeWhile isWsChar
  match value.dropWhile isWsChar with
  | [] => none
  | c :: rest =>
    some (lead, (c :: rest).takeWhile (fun ch => !isWsChar ch),
      (c :: rest).dropWhile (fun ch => !isWsChar ch))

/-- The dotenv updater's `updateEnvValue`: for the first packages whose name
matches, try the quoted-value shape and then the unquoted one; a value whose
token fails the strict version pattern, or already equals the requested
version, is left alone.  When neither shape parses, the Go loop falls
through to its next iteration. -/
def updateEnvValue (value : Chars) (packageName : Chars) :
    List Package → Chars × Bool
  | [] => (value, false)
  | pkg :: rest =>
    if pkg.name = packageName then
      match quotedValueSplit value with
      | some (leadingSpace, startQuote, currentValue, endQuote, trailingContent) =>
        if !strictMatch currentValue then (value, false)
        else if currentValue = pkg.version then (value, false)
        else (leadingSpace ++ startQuote :: pkg.version ++ endQuote :: trailingContent, true)
      | none =>
        match spaceVersionSplit value with
        | some (leadingSpace, currentValue, trailingContent) =>
          if !strictMatch currentValue then (value, false)
          else if currentValue = pkg.version then (value, false)
          else (leadingSpace ++ pkg.version ++ trailingContent, true)
        | none => updateEnvValue value packageName rest
    else updateEnvValue value packageName rest

/-- The dotenv updater's `processInlineDepupComment`. -/
def dotenvInline (line : Chars) (packages : List Package) : Chars × Bool :=
  if dotenvIsBlankOrComment line then (line, false)
  else
    match splitAtHashComment line with
    | none => (line, false)
    | some (lineContent, comment) =>
      match findDepupHash comment with
      | none => (line, false)
      | some packageName =>
        match splitKeyValue lineContent with
        | none => (line, false)
        | some (key, value) =>
          match updateEnvValue value packageName packages with
          | (updatedValue, true) => (key ++ '=' :: updatedValue ++ comment, true)
          | (_, false) => (line, false)

/-- The dotenv updater's `processPreviousLineDepupComment`. -/
def dotenvPrev (prevLine currentLine : Chars) (packages : List Package) : Chars × Bool :=
  if dotenvIsBlankOrComment currentLine then (currentLine, false)
  else
    match findDepupHash prevLine with
    | none => (currentLine, false)
    | some packageName =>
      match splitKeyValue currentLine with
      | none => (currentLine, false)
      | some (key, value) =>
        match updateEnvValue value packageName packages with
        | (updatedValue, true) => (key ++ '=' :: updatedValue, true)
        | (_, false) => (currentLine, false)

deriving instance DecidableEq for Except

/-- The three file dialects, one per `FileUpdater` implementation. -/
inductive Dialect
  | yaml
  | hcl
  | dotenv
deriving DecidableEq, Repr

/-- Dialect dispatch of `processInlineDepupComment`. -/
def inlineStep : Dialect → Chars → List Package → Chars × Bool
  | .yaml => yamlInline
  | .hcl => hclInline
  | .dotenv => dotenvInline

/-- Dialect dispatch of `processPreviousLineDepupComment`. -/
def prevStep : Dialect → Chars → Chars → List Package → Chars × Bool
  | .yaml => yamlPrev
  | .hcl => hclPrev
  | .dotenv => dotenvPrev

/-- One iteration of the loop body of `processLines`, shared verbatim by the
three updaters: the inline case is tried first and, only when it reports no
update and a previous line exists, the previous-line case. -/
def processLine (d : Dialect) (prevLine? : Option Chars) (currentLine : Chars)
    (packages : List Package) : Chars × Bool :=
  let r := inlineStep d currentLine packages
  if r.2 then r
  else
    match prevLine? with
    | none => (currentLine, false)
    | some prevLine => prevStep d prevLine currentLine packages

/-- The line loop of `processLines`: each line is processed with the
original previous line as lookback, and the per-line update flags are
accumulated by disjunction. -/
def processLinesFrom (d : Dialect) (packages : List Package) :
    Option Chars → List Chars → List Chars × Bool
  | _, [] => ([], false)
  | prevLine?, l :: rest =>
    let r := processLine d prevLine? l packages
    let rr := processLinesFrom d packages (some l) rest
    (r.1 :: rr.1, r.2 || rr.2)

/-- The output assembly of `processLines`: every line is followed by a
newline except the last, which gets one exactly when the original file
ended with one. -/
def buildOutput (endsWithNewline : Bool) : List Chars → Chars
  | [] => []
  | [l] => if endsWithNewline then l ++ ['\n'] else l
  | l :: rest => l ++ '\n' :: buildOutput endsWithNewline rest

/-- `processLines` of the three updaters (their bodies are identical):
process all lines and reassemble the output. -/
def processLines (d : Dialect) (lines : List Chars) (packages : List Package)
    (endsWithNewline : Bool) : Chars × Bool :=
  let r := processLinesFrom d packages none lines
  (buildOutput endsWithNewline r.1, r.2)

/-- The raw token split of `bufio.Scanner` with `bufio.ScanLines`: tokens
are the runs between newline characters; a final newline does not produce an
empty last token, and an empty input produces no token. -/
def splitRaw : Chars → List Chars
  | [] => []
  | c :: r =>
    if c = '\n' then [] :: splitRaw r
    else
      match splitRaw r with
      | [] => [[c]]
      | l :: ls => (c :: l) :: ls

/-- Whether a list ends with the given character. -/
def endsWith (c : Char) (l : Chars) : Bool :=
  match l.getLast? with
  | some x => x = c
  | none => false

/-- The trailing-carriage-return strip `dropCR` applied by
`bufio.ScanLines` to every token. -/
def dropCRLine (l : Chars) : Chars :=
  if endsWith '\r' l then l.dropLast else l

/-- `readFileContent`'s line list: the scanner's tokens with a trailing
carriage return stripped from each. -/
def scanLines (content : Chars) : List Chars :=
  (splitRaw content).map dropCRLine

/-- `readFileContent`'s trailing-newline flag:
`len(fileContent) > 0 && fileContent[len(fileContent)-1] == '\n'`. -/
def hasTrailingNL (content : Chars) : Bool :=
  endsWith '\n' content

/-- The pure computation of `UpdateFile` on a file's content: read the lines
and the trailing-newline flag, then run `processLines`. -/
def updateFileContent (d : Dialect) (content : Chars) (packages : List Package) :
    Chars × Bool :=
  processLines d (scanLines content) packages (hasTrailingNL content)

/-- A file system: a map from paths to file contents. -/
abbrev Path := List Char

/-- File-system model: `none` is an unreadable (absent) file. -/
abbrev Fs := Path → Option Chars

/-- `UpdateFile` of the three updaters (their bodies are identical): read
the file, process its lines, and overwrite the file with the output exactly
when a change occurred and dry-run mode is off; the returned value is the
output content, the change flag and the resulting file system. -/
def updateFile (d : Dialect) (fs : Fs) (filePath : Path) (packages : List Package)
    (options : FileUpdaterOptions) : Option ((Chars × Bool) × Fs) :=
  match fs filePath with
  | none => none
  | some content =>
    let r := updateFileContent d content packages
    let fs' : Fs :=
      if r.2 && !options.dryRun then fun p => if p = filePath then some r.1 else fs p
      else fs
    some ((r.1, r.2), fs')

/-- `namePattern.MatchString`: the anchored pattern `^[a-zA-Z0-9-]+$`. -/
def namePatternMatch (s : Chars) : Bool :=
  !s.isEmpty && s.all isNameChar

/-- `Package.Validate` of the orchestrating updater package: no error is
reported exactly when `versionPattern` matches (somewhere in) the version
and `namePattern` matches the name. -/
def packageValid (p : Package) : Bool :=
  strictMatch p.version && namePatternMatch p.name

/-- The validation prefix of `Updater.Update`: the batch proceeds exactly
when every requested package validates. -/
def updateValidates (packages : List Package) : Bool :=
  packages.all packageValid

/-- Reverse-scanning helper of `filepathExt`: the extension of a path given
in reverse character order. -/
def filepathExtRev : Chars → Chars
  | [] => []
  | c :: r =>
    if c = '/' then []
    else if c = '.' then ('.' :: [])
    else
      match filepathExtRev r with
      | [] => []
      | e :: es => e :: es ++ [c]

/-- `filepath.Ext`: the suffix beginning at the final dot in the final
path element; empty when there is no dot. -/
def filepathExt (path : Path) : Path :=
  filepathExtRev path.reverse

/-- `filepath.Base`: the last element of the path, after stripping trailing
separators; `"."` for an empty path and `"/"` for an all-separator path. -/
def filepathBase (path : Path) : Path :=
  if path = [] then ['.']
  else
    let q := path.reverse.dropWhile (fun c => c = '/')
    if q = [] then ['/']
    else (q.takeWhile (fun c => c ≠ '/')).reverse

/-- `strings.ToLower` on the ASCII fragment relevant to file extensions. -/
def asciiToLower (p : Path) : Path :=
  p.map Char.toLower

/-- Expansion of a `*` wildcard: `m` is the matcher of the rest of the
pattern, applied after skipping any run of non-separator characters. -/
def globStar (m : Path → Bool) : Path → Bool
  | [] => m []
  | c :: nr => m (c :: nr) || (c ≠ '/' && globStar m nr)

/-- `filepath.Match` for the patterns the updater registers, none of which
contains a character class: `*` matches any possibly empty run of
non-separator characters, `?` one non-separator character, anything else
itself. -/
def matchGlob : Path → Path → Bool
  | [], [] => true
  | [], _ :: _ => false
  | '*' :: pr, name => globStar (matchGlob pr) name
  | '?' :: pr, name =>
    (match name with
     | [] => false
     | c :: nr => c ≠ '/' && matchGlob pr nr)
  | c :: pr, [] => false
  | c :: pr, d :: nr => c = d && matchGlob pr nr

/-- The YAML updater's `Supports`: membership in its extension map
`{".yaml", ".yml"}`. -/
def yamlSupports (fileExtension : Path) : Bool :=
  fileExtension = ".yaml".data || fileExtension = ".yml".data

/-- The HCL updater's `Supports`: membership in its extension map
`{".hcl", ".tf", ".tfvars"}`. -/
def hclSupports (fileExtension : Path) : Bool :=
  fileExtension = ".hcl".data || fileExtension = ".tf".data ||
    fileExtension = ".tfvars".data

/-- The glob arm of the dotenv updater's `Supports` for one pattern of its
map: patterns containing a wildcard are matched against the extension itself
and against the fake file name `"file" + fileExtension`. -/
def dotenvSupportsGlob (pattern fileExtension : Path) : Bool :=
  (pattern.contains '*' || pattern.contains '?') &&
    (matchGlob pattern fileExtension ||
      matchGlob pattern ("file".data ++ fileExtension))

/-- The dotenv updater's `Supports`: a direct hit in its extension map
`{".env", ".env.*"}`, or a glob hit of one of those patterns (the map's
iteration order does not matter because the loop only ever returns
`true`). -/
def dotenvSupports (fileExtension : Path) : Bool :=
  (fileExtension = ".env".data || fileExtension = ".env.*".data) ||
    (dotenvSupportsGlob ".env".data fileExtension ||
      dotenvSupportsGlob ".env.*".data fileExtension)

/-- Modelled from the spec: the `GetSupportedExtensions` methods of the
YAML and HCL updaters are not under src/ (only the interface and their
extension maps are), so the default extension list that `NewUpdater`
accumulates from the three updaters is taken from the spec's list of
supported extensions — markup `.yaml`/`.yml`, brace `.hcl`/`.tf`/`.tfvars`,
env `.env` and the glob `.env.*` (the dotenv entries match the map in
`dotenv_file_updater.go`). -/
def defaultFileExtensions : List Path :=
  [".yaml".data, ".yml".data, ".hcl".data, ".tf".data, ".tfvars".data,
    ".env".data, ".env.*".data]

/-- `Updater.isFileExtensionSupported`: the lower-cased extension is
compared with each configured pattern, and a pattern containing a wildcard
is additionally glob-matched against the file's base name. -/
def isFileExtensionSupported (filePath : Path) : Bool :=
  let fileExtension := asciiToLower (filepathExt filePath)
  let fileName := filepathBase filePath
  defaultFileExtensions.any fun pattern =>
    pattern = fileExtension ||
      ((pattern.contains '*' || pattern.contains '?' || pattern.contains '[') &&
        matchGlob pattern fileName)

/-- `Updater.getFileUpdater`: the first of the three registered updaters
(YAML, HCL, dotenv, in registration order) that supports the extension. -/
def getFileUpdater (fileExtension : Path) : Option Dialect :=
  if yamlSupports fileExtension then some .yaml
  else if hclSupports fileExtension then some .hcl
  else if dotenvSupports fileExtension then some .dotenv
  else none

/-- The dispatch prefix of `Updater.processFile`: files with unsupported
extensions are skipped silently (`ok none`), otherwise an updater is looked
up by `filepath.Ext` and its absence is an error. -/
def dispatchFile (filePath : Path) : Except Chars (Option Dialect) :=
  if !isFileExtensionSupported filePath then .ok none
  else
    match getFileUpdater (filepathExt filePath) with
    | some d => .ok (some d)
    | none => .error ("no updater found for file extension: ".data ++ filepathExt filePath)

/-- Absence of an annotation in a line, per dialect: the `#`-style pattern
never matches, and for the brace dialect the `//`-style pattern does not
match either. -/
def noAnnot (d : Dialect) (l : Chars) : Prop :=
  findDepupHash l = none ∧ (d = Dialect.hcl → findDepupSlash l = none)

instance (d : Dialect) (l : Chars) : Decidable (noAnnot d l) := by
  unfold noAnnot
  infer_instance

/-- A successful `findSplit` decomposes the line into the two parts. -/
theorem findSplit_append (pred : Chars → Bool) :
    ∀ (l a b : Chars), findSplit pred l = some (a, b) → l = a ++ b := by
  intro l
  induction l with
  | nil =>
    intro a b h
    simp only [findSplit] at h
    by_cases hp : pred []
    · rw [if_pos hp] at h
      obtain ⟨rfl, rfl⟩ := Prod.mk.injEq .. ▸ Option.some.inj h
      rfl
    · rw [if_neg hp] at h
      exact absurd h (by simp)
  | cons c r ih =>
    intro a b h
    simp only [findSplit] at h
    by_cases hp : pred (c :: r)
    · rw [if_pos hp] at h
      obtain ⟨rfl, rfl⟩ := Prod.mk.injEq .. ▸ Option.some.inj h
      rfl
    · rw [if_neg hp] at h
      cases hr : findSplit pred r with
      | none => rw [hr] at h; exact absurd h (by simp)
      | some ab =>
        obtain ⟨a0, b0⟩ := ab
        rw [hr] at h
        obtain ⟨rfl, rfl⟩ := Prod.mk.injEq .. ▸ Option.some.inj h
        have := ih a0 b0 hr
        rw [List.cons_append, ← this]

/-- A successful `findSplit` has the predicate hold on the second part. -/
theorem findSplit_pred (pred : Chars → Bool) :
    ∀ (l a b : Chars), findSplit pred l = some (a, b) → pred b = true := by
  intro l
  induction l with
  | nil =>
    intro a b h
    simp only [findSplit] at h
    by_cases hp : pred []
    · rw [if_pos hp] at h
      obtain ⟨rfl, rfl⟩ := Prod.mk.injEq .. ▸ Option.some.inj h
      exact hp
    · rw [if_neg hp] at h
      exact absurd h (by simp)
  | cons c r ih =>
    intro a b h
    simp only [findSplit] at h
    by_cases hp : pred (c :: r)
    · rw [if_pos hp] at h
      obtain ⟨rfl, rfl⟩ := Prod.mk.injEq .. ▸ Option.some.inj h
      exact hp
    · rw [if_neg hp] at h
      cases hr : findSplit pred r with
      | none => rw [hr] at h; exact absurd h (by simp)
      | some ab =>
        obtain ⟨a0, b0⟩ := ab
        rw [hr] at h
        obtain ⟨rfl, rfl⟩ := Prod.mk.injEq .. ▸ Option.some.inj h
        exact ih a0 b0 hr

/-- `findSplit` succeeds as soon as some suffix satisfies the predicate. -/
theorem findSplit_isSome_of_drop (pred : Chars → Bool) :
    ∀ (l : Chars) (k : Nat), pred (l.drop k) = true → (findSplit pred l).isSome := by
  intro l
  induction l with
  | nil =>
    intro k h
    simp only [List.drop_nil] at h
    simp [findSplit, h]
  | cons c r ih =>
    intro k h
    match k with
    | 0 =>
      simp only [List.drop_zero] at h
      simp [findSplit, h]
    | k' + 1 =>
      simp only [List.drop_succ_cons] at h
      simp only [findSplit]
      by_cases hp : pred (c :: r)
      · simp [hp]
      · rw [if_neg hp]
        have := ih k' h
        cases hr : findSplit pred r with
        | none => rw [hr] at this; exact absurd this (by simp)
        | some ab => obtain ⟨a, b⟩ := ab; simp

/-- The first part of a successful `findSplit` is shortest: the predicate
fails on every suffix starting strictly inside it. -/
theorem findSplit_min (pred : Chars → Bool) :
    ∀ (l a b : Chars), findSplit pred l = some (a, b) →
      ∀ j, j < a.length → pred (l.drop j) = false := by
  intro l
  induction l with
  | nil =>
    intro a b h j hj
    simp only [findSplit] at h
    by_cases hp : pred []
    · rw [if_pos hp] at h
      obtain ⟨rfl, rfl⟩ := Prod.mk.injEq .. ▸ Option.some.inj h
      exact absurd hj (by simp)
    · rw [if_neg hp] at h
      exact absurd h (by simp)
  | cons c r ih =>
    intro a b h j hj
    simp only [findSplit] at h
    by_cases hp : pred (c :: r)
    · rw [if_pos hp] at h
      obtain ⟨rfl, rfl⟩ := Prod.mk.injEq .. ▸ Option.some.inj h
      exact absurd hj (by simp)
    · rw [if_neg hp] at h
      cases hr : findSplit pred r with
      | none => rw [hr] at h; exact absurd h (by simp)
      | some ab =>
        obtain ⟨a0, b0⟩ := ab
        rw [hr] at h
        obtain ⟨rfl, rfl⟩ := Prod.mk.injEq .. ▸ Option.some.inj h
        match j with
        | 0 =>
          simpa using hp
        | j' + 1 =>
          simp only [List.length_cons, Nat.add_lt_add_iff_right] at hj
          simpa using ih a0 b0 hr j' hj

/-- A successful match of the version body needs a digit at the head. -/
theorem matchVersionCore_head_digit (s : Chars) (v r : Chars)
    (h : matchVersionCore s = some (v, r)) :
    ∃ c rest, s = c :: rest ∧ c.isDigit := by
  match s with
  | [] => simp [matchVersionCore, List.takeWhile] at h
  | c :: rest =>
    refine ⟨c, rest, rfl, ?_⟩
    cases hc : c.isDigit with
    | true => rfl
    | false =>
      exfalso
      have hw : (c :: rest).takeWhile Char.isDigit = [] := by
        simp [List.takeWhile, hc]
      rw [matchVersionCore] at h
      simp only [hw, if_pos] at h
      exact absurd h (by simp)

/-- A successful version match at the head of a string needs the string to
contain a digit. -/
theorem matchVersionAt_has_digit (s : Chars) (q1 v q2 r : Chars)
    (h : matchVersionAt s = some (q1, v, q2, r)) : ∃ c ∈ s, c.isDigit := by
  match s with
  | [] => simp [matchVersionAt] at h
  | c :: rest =>
    simp only [matchVersionAt] at h
    by_cases hq : isQuoteChar c
    · rw [if_pos hq] at h
      cases hm : matchVersionCore rest with
      | none => rw [hm] at h; exact absurd h (by simp)
      | some vr =>
        obtain ⟨v0, r0⟩ := vr
        obtain ⟨c2, r2, hrest, hd⟩ := matchVersionCore_head_digit rest v0 r0 hm
        exact ⟨c2, by simp [hrest], hd⟩
    · rw [if_neg hq] at h
      cases hm : matchVersionCore (c :: rest) with
      | none => rw [hm] at h; exact absurd h (by simp)
      | some vr =>
        obtain ⟨v0, r0⟩ := vr
        obtain ⟨c2, r2, hrest, hd⟩ := matchVersionCore_head_digit _ v0 r0 hm
        have : c2 = c := (List.cons.injEq .. ▸ hrest).1.symm
        exact ⟨c, by simp, this ▸ hd⟩

/-- A successful version search needs a digit somewhere in the line. -/
theorem findVersionSub_has_digit :
    ∀ (l : Chars) (pre q1 v q2 post : Chars),
      findVersionSub l = some (pre, q1, v, q2, post) → ∃ c ∈ l, c.isDigit := by
  intro l
  induction l with
  | nil => intro pre q1 v q2 post h; simp [findVersionSub] at h
  | cons c r ih =>
    intro pre q1 v q2 post h
    simp only [findVersionSub] at h
    cases hm : matchVersionAt (c :: r) with
    | some g =>
      obtain ⟨q1', v', q2', r'⟩ := g
      exact matchVersionAt_has_digit _ _ _ _ _ hm
    | none =>
      rw [hm] at h
      cases hr : findVersionSub r with
      | none => rw [hr] at h; exact absurd h (by simp)
      | some g =>
        obtain ⟨pre0, q10, v0, q20, post0⟩ := g
        obtain ⟨c0, hc0, hd0⟩ := ih pre0 q10 v0 q20 post0 hr
        exact ⟨c0, by simp [hc0], hd0⟩

/-- A whitespace character is not a digit. -/
theorem goIsSpace_not_digit (c : Char) (h : goIsSpace c = true) :
    c.isDigit = false := by
  simp only [goIsSpace, Bool.or_eq_true, decide_eq_true_eq] at h
  rcases h with ((((h | h) | h) | h) | h) | h <;> (subst h; decide)

/-- A version search in a line of whitespace fails. -/
theorem findVersionSub_ws_none (l : Chars) (hws : ∀ c ∈ l, goIsSpace c) :
    findVersionSub l = none := by
  cases hf : findVersionSub l with
  | none => rfl
  | some g =>
    obtain ⟨pre, q1, v, q2, post⟩ := g
    obtain ⟨c, hc, hd⟩ := findVersionSub_has_digit l pre q1 v q2 post hf
    rw [goIsSpace_not_digit c (hws c hc)] at hd
    exact absurd hd (by simp)

/-- A `#`-annotation found in a suffix is found in the whole line. -/
theorem findDepupHash_isSome_append (a : Chars) (b : Chars)
    (h : (findDepupHash b).isSome) : (findDepupHash (a ++ b)).isSome := by
  induction a with
  | nil => simpa using h
  | cons c r ih =>
    simp only [List.cons_append, findDepupHash]
    by_cases hc : c = '#'
    · rw [if_pos hc]
      cases hp : parseDepupAfterMarker (r ++ b) with
      | some n => simp
      | none => simpa using ih
    · rw [if_neg hc]
      exact ih

/-- A `//`-annotation found in a suffix is found in the whole line. -/
theorem findDepupSlash_isSome_append (a : Chars) (b : Chars)
    (h : (findDepupSlash b).isSome) : (findDepupSlash (a ++ b)).isSome := by
  induction a with
  | nil => simpa using h
  | cons c r ih =>
    rw [List.cons_append, findDepupSlash]
    cases hch : chopPrefix ['/', '/'] (c :: (r ++ b)) with
    | none => exact ih
    | some r2 =>
      cases hp : parseDepupAfterMarker r2 with
      | some n => simp [hp]
      | none => simpa [hp] using ih

/-- The scanner returns no token only for empty content. -/
theorem splitRaw_eq_nil_iff (c : Chars) : splitRaw c = [] ↔ c = [] := by
  constructor
  · intro h
    match c with
    | [] => rfl
    | x :: r =>
      rw [splitRaw] at h
      by_cases hx : x = '\n'
      · rw [if_pos hx] at h; exact absurd h (by simp)
      · rw [if_neg hx] at h
        cases hL : splitRaw r with
        | nil => rw [hL] at h; exact absurd h (by simp)
        | cons l ls => rw [hL] at h; exact absurd h (by simp)
  · intro h; rw [h]; rfl

/-- Ends-with is blind to a prepended head when the tail is nonempty. -/
theorem endsWith_cons (ch a : Char) (l : Chars) (h : l ≠ []) :
    endsWith ch (a :: l) = endsWith ch l := by
  match l, h with
  | b :: t, _ => simp only [endsWith, List.getLast?_cons_cons]

/-- Appending to the output line keeps the line-end analysis on the tail. -/
theorem endsWith_append (ch : Char) (a l : Chars) (h : l ≠ []) :
    endsWith ch (a ++ l) = endsWith ch l := by
  induction a with
  | nil => rfl
  | cons x a ih =>
    rw [List.cons_append, endsWith_cons ch x (a ++ l) (by simp [h]), ih]

/-- Reassembling the scanner's raw tokens with the original
trailing-newline flag reproduces the content exactly. -/
theorem buildOutput_splitRaw (c : Chars) :
    buildOutput (endsWith '\n' c) (splitRaw c) = c := by
  induction c with
  | nil => rfl
  | cons x r ih =>
    by_cases hx : x = '\n'
    · subst hx
      rw [splitRaw, if_pos rfl]
      by_cases hr : r = []
      · subst hr; rfl
      · rw [endsWith_cons '\n' '\n' r hr]
        cases hL : splitRaw r with
        | nil => exact absurd ((splitRaw_eq_nil_iff r).mp hL) hr
        | cons l0 ls =>
          rw [hL] at ih
          simp only [buildOutput, List.nil_append]
          rw [ih]
    · rw [splitRaw, if_neg hx]
      cases hL : splitRaw r with
      | nil =>
        have hr : r = [] := (splitRaw_eq_nil_iff r).mp hL
        subst hr
        simp only [buildOutput, endsWith, List.getLast?_singleton]
        rw [if_neg (by simpa using hx)]
      | cons l0 ls =>
        have hr : r ≠ [] := by
          intro hre
          rw [hre] at hL
          exact absurd hL.symm (by simp [splitRaw])
        rw [endsWith_cons '\n' x r hr]
        rw [hL] at ih
        cases ls with
        | nil =>
          simp only [buildOutput] at ih ⊢
          by_cases he : endsWith '\n' r = true
          · rw [if_pos he] at ih ⊢
            rw [← ih]
            simp
          · rw [if_neg he] at ih ⊢
            rw [ih]
        | cons l1 ls1 =>
          simp only [buildOutput] at ih ⊢
          rw [List.cons_append, ih]

/-- Stripping carriage returns is the identity on tokens that do not end
with one. -/
theorem scanLines_eq_splitRaw (c : Chars)
    (hCR : ∀ l ∈ splitRaw c, endsWith '\r' l = false) :
    scanLines c = splitRaw c := by
  unfold scanLines
  have : ∀ l ∈ splitRaw c, dropCRLine l = l := by
    intro l hl
    unfold dropCRLine
    rw [hCR l hl]
    simp
  rw [List.map_congr_left this]
  simp

/-- The markup inline case is inert on a line with no `#`-annotation. -/
theorem yamlInline_noAnnot (line : Chars) (packages : List Package)
    (h : findDepupHash line = none) : yamlInline line packages = (line, false) := by
  cases hs : findSplit startsWithHash line with
  | none => simp [yamlInline, splitAtHashComment, hs]
  | some cc =>
    obtain ⟨content, comment⟩ := cc
    have hcom : findDepupHash comment = none := by
      cases hn : findDepupHash comment with
      | none => rfl
      | some n =>
        have := findDepupHash_isSome_append content comment (by simp [hn])
        rw [← findSplit_append startsWithHash line content comment hs, h] at this
        exact absurd this (by simp)
    simp [yamlInline, splitAtHashComment, hs, hcom]

/-- The markup previous-line case is inert under an annotation-free
previous line. -/
theorem yamlPrev_noAnnot (prevLine currentLine : Chars) (packages : List Package)
    (h : findDepupHash prevLine = none) :
    yamlPrev prevLine currentLine packages = (currentLine, false) := by
  simp [yamlPrev, h]

/-- The brace inline case is inert on a line with neither comment-style
annotation. -/
theorem hclInline_noAnnot (line : Chars) (packages : List Package)
    (h1 : findDepupHash line = none) (h2 : findDepupSlash line = none) :
    hclInline line packages = (line, false) := by
  have hstep : ∀ pred : Chars → Bool,
      hclInlineStep (findSplit pred) line packages = none := by
    intro pred
    cases hs : findSplit pred line with
    | none => simp [hclInlineStep, hs]
    | some cc =>
      obtain ⟨content, comment⟩ := cc
      have hcomh : findDepupHash comment = none := by
        cases hn : findDepupHash comment with
        | none => rfl
        | some n =>
          have := findDepupHash_isSome_append content comment (by simp [hn])
          rw [← findSplit_append pred line content comment hs, h1] at this
          exact absurd this (by simp)
      have hcoms : findDepupSlash comment = none := by
        cases hn : findDepupSlash comment with
        | none => rfl
        | some n =>
          have := findDepupSlash_isSome_append content comment (by simp [hn])
          rw [← findSplit_append pred line content comment hs, h2] at this
          exact absurd this (by simp)
      simp [hclInlineStep, hs, hclFindName, hcomh, hcoms]
  unfold hclInline splitAtHashComment splitAtSlashComment
  rw [hstep startsWithHash, hstep startsWithSlash]

/-- The brace previous-line case is inert under an annotation-free
previous line. -/
theorem hclPrev_noAnnot (prevLine currentLine : Chars) (packages : List Package)
    (h1 : findDepupHash prevLine = none) (h2 : findDepupSlash prevLine = none) :
    hclPrev prevLine currentLine packages = (currentLine, false) := by
  simp [hclPrev, hclFindName, h1, h2]

/-- The env inline case is inert on a line with no `#`-annotation. -/
theorem dotenvInline_noAnnot (line : Chars) (packages : List Package)
    (h : findDepupHash line = none) : dotenvInline line packages = (line, false) := by
  unfold dotenvInline
  by_cases hb : dotenvIsBlankOrComment line
  · rw [if_pos hb]
  · rw [if_neg hb]
    cases hs : splitAtHashComment line with
    | none => rfl
    | some cc =>
      obtain ⟨content, comment⟩ := cc
      have hcom : findDepupHash comment = none := by
        cases hn : findDepupHash comment with
        | none => rfl
        | some n =>
          have := findDepupHash_isSome_append content comment (by simp [hn])
          rw [← findSplit_append startsWithHash line content comment hs, h] at this
          exact absurd this (by simp)
      simp [hcom]

/-- The env previous-line case is inert under an annotation-free previous
line. -/
theorem dotenvPrev_noAnnot (prevLine currentLine : Chars) (packages : List Package)
    (h : findDepupHash prevLine = none) :
    dotenvPrev prevLine currentLine packages = (currentLine, false) := by
  unfold dotenvPrev
  by_cases hb : dotenvIsBlankOrComment currentLine
  · rw [if_pos hb]
  · rw [if_neg hb, h]

/-- A line with no annotation, after a previous line with no annotation, is
passed through unchanged. -/
theorem processLine_noAnnot (d : Dialect) (prevLine? : Option Chars)
    (currentLine : Chars) (packages : List Package)
    (hc : noAnnot d currentLine)
    (hp : ∀ p, prevLine? = some p → noAnnot d p) :
    processLine d prevLine? currentLine packages = (currentLine, false) := by
  have hinl : inlineStep d currentLine packages = (currentLine, false) := by
    cases d with
    | yaml => exact yamlInline_noAnnot _ _ hc.1
    | hcl => exact hclInline_noAnnot _ _ hc.1 (hc.2 rfl)
    | dotenv => exact dotenvInline_noAnnot _ _ hc.1
  simp only [processLine, hinl, Bool.false_eq_true, if_false]
  cases prevLine? with
  | none => rfl
  | some p =>
    have hpa := hp p rfl
    cases d with
    | yaml => exact yamlPrev_noAnnot _ _ _ hpa.1
    | hcl => exact hclPrev_noAnnot _ _ _ hpa.1 (hpa.2 rfl)
    | dotenv => exact dotenvPrev_noAnnot _ _ _ hpa.1

/-- A file of annotation-free lines passes through the line loop unchanged
with no update reported. -/
theorem processLinesFrom_noAnnot (d : Dialect) (packages : List Package) :
    ∀ (lines : List Chars) (prevLine? : Option Chars),
      (∀ l ∈ lines, noAnnot d l) →
      (∀ p, prevLine? = some p → noAnnot d p) →
      processLinesFrom d packages prevLine? lines = (lines, false) := by
  intro lines
  induction lines with
  | nil => intro prevLine? _ _; rfl
  | cons l rest ih =>
    intro prevLine? hall hp
    have h1 := processLine_noAnnot d prevLine? l packages (hall l (by simp)) hp
    have h2 := ih (some l) (fun x hx => hall x (by simp [hx]))
      (fun p hpeq => by rw [Option.some.inj hpeq.symm]; exact hall l (by simp))
    simp only [processLinesFrom, h1, h2, Bool.or_self]

/-- An optional version tail decomposes its input. -/
theorem versionTail_append (marker : Char) (r5 : Chars) :
    (versionTail marker r5).1 ++ (versionTail marker r5).2 = r5 := by
  unfold versionTail
  split
  · rename_i c r
    by_cases hc : c = marker
    · rw [if_pos hc]
      by_cases hrun : r.takeWhile isSemverChar = []
      · rw [if_pos hrun]; rfl
      · rw [if_neg hrun]
        simp only [List.cons_append, List.takeWhile_append_dropWhile]
    · rw [if_neg hc]; rfl
  · rfl

/-- A successful match of the version body decomposes its input. -/
theorem matchVersionCore_append (s v r : Chars)
    (h : matchVersionCore s = some (v, r)) : s = v ++ r := by
  simp only [matchVersionCore] at h
  split at h
  · exact absurd h (by simp)
  · rename_i h1
    split at h
    · rename_i c1 r2 hdrop
      split at h
      · exact absurd h (by simp)
      · rename_i hc1ne
        have hc1 : c1 = '.' := by
          by_contra hno
          exact hc1ne (by simpa using hno)
        split at h
        · exact absurd h (by simp)
        · rename_i h2
          split at h
          · rename_i c2 r4 hdrop2
            split at h
            · exact absurd h (by simp)
            · rename_i hc2ne
              have hc2 : c2 = '.' := by
                by_contra hno
                exact hc2ne (by simpa using hno)
              split at h
              · exact absurd h (by simp)
              · rename_i h3
                obtain ⟨hv, hr⟩ := Prod.mk.injEq .. ▸ Option.some.inj h
                have e1 : s = s.takeWhile Char.isDigit ++ c1 :: r2 := by
                  rw [← hdrop, List.takeWhile_append_dropWhile]
                have e2 : r2 = r2.takeWhile Char.isDigit ++ c2 :: r4 := by
                  rw [← hdrop2, List.takeWhile_append_dropWhile]
                have e3 : r4 = r4.takeWhile Char.isDigit ++
                    r4.dropWhile Char.isDigit :=
                  (List.takeWhile_append_dropWhile _ _).symm
                have e4 := versionTail_append '-' (r4.dropWhile Char.isDigit)
                have e5 := versionTail_append '+'
                  (versionTail '-' (r4.dropWhile Char.isDigit)).2
                rw [← hv, ← hr]
                conv_lhs => rw [e1, hc1]
                conv_lhs => rw [e2, hc2]
                conv_lhs => rw [e3]
                conv_lhs => rw [← e4]
                conv_lhs => rw [← e5]
                simp [List.append_assoc]
          · exact absurd h (by simp)
    · exact absurd h (by simp)

/-- A successful match of the whole pattern decomposes its input into the
three capture groups and the rest. -/
theorem matchVersionAt_append (s q1 v q2 r : Chars)
    (h : matchVersionAt s = some (q1, v, q2, r)) : s = q1 ++ v ++ q2 ++ r := by
  match s with
  | [] => simp [matchVersionAt] at h
  | c :: rest =>
    simp only [matchVersionAt] at h
    split at h
    · split at h
      · exact absurd h (by simp)
      · rename_i v0 r0 hm
        have hdec := matchVersionCore_append rest v0 r0 hm
        split at h
        · rename_i c2 r2 hr0
          split at h
          · obtain ⟨rfl, rfl, rfl, rfl⟩ := by simpa using h
            simp [hdec]
          · obtain ⟨rfl, rfl, rfl, rfl⟩ := by simpa using h
            simp [hdec]
        · rename_i hr0
          obtain ⟨rfl, rfl, rfl, rfl⟩ := by simpa using h
          simp [hdec]
    · split at h
      · exact absurd h (by simp)
      · rename_i v0 r0 hm
        have hdec := matchVersionCore_append _ v0 r0 hm
        split at h
        · rename_i c2 r2 hr0
          split at h
          · obtain ⟨rfl, rfl, rfl, rfl⟩ := by simpa using h
            simp [hdec]
          · obtain ⟨rfl, rfl, rfl, rfl⟩ := by simpa using h
            simp [hdec]
        · rename_i hr0
          obtain ⟨rfl, rfl, rfl, rfl⟩ := by simpa using h
          simp [hdec]

/-- A successful version search decomposes the line into the text before
the match, the three capture groups and the text after it. -/
theorem findVersionSub_append :
    ∀ (l pre q1 v q2 post : Chars),
      findVersionSub l = some (pre, q1, v, q2, post) →
      l = pre ++ q1 ++ v ++ q2 ++ post := by
  intro l
  induction l with
  | nil => intro pre q1 v q2 post h; simp [findVersionSub] at h
  | cons c r ih =>
    intro pre q1 v q2 post h
    simp only [findVersionSub] at h
    cases hm : matchVersionAt (c :: r) with
    | some g =>
      obtain ⟨q1', v', q2', r'⟩ := g
      rw [hm] at h
      obtain ⟨hpre, hq1, hv, hq2, hpost⟩ := by simpa using h
      subst hpre; subst hq1; subst hv; subst hq2; subst hpost
      simpa using matchVersionAt_append _ _ _ _ _ hm
    | none =>
      rw [hm] at h
      cases hr : findVersionSub r with
      | none => rw [hr] at h; exact absurd h (by simp)
      | some g =>
        obtain ⟨pre0, q10, v0, q20, post0⟩ := g
        rw [hr] at h
        obtain ⟨hpre, hq1, hv, hq2, hpost⟩ := by simpa using h
        subst hq1; subst hv; subst hq2; subst hpost
        rw [← hpre]
        have := ih pre0 q10 v0 q20 post0 hr
        simp [this]

/-- The package returned by the name lookup is one of the requested
packages. -/
theorem lookupPackage_mem (name : Chars) :
    ∀ (packages : List Package) (pkg : Package),
      lookupPackage name packages = some pkg → pkg ∈ packages := by
  intro packages
  induction packages with
  | nil => intro pkg h; simp [lookupPackage] at h
  | cons p rest ih =>
    intro pkg h
    simp only [lookupPackage] at h
    by_cases hn : p.name = name
    · rw [if_pos hn] at h
      rw [Option.some.inj h]
      simp
    · rw [if_neg hn] at h
      exact List.mem_cons_of_mem _ (ih pkg h)

/-- Characters of a first-occurrence replacement come from the original
string or the replacement text. -/
theorem replaceFirstPos_subset :
    ∀ (s old new : Chars) (ch : Char), ch ∈ replaceFirstPos s old new →
      ch ∈ s ∨ ch ∈ new := by
  intro s
  induction s with
  | nil => intro old new ch h; simp [replaceFirstPos] at h
  | cons c r ih =>
    intro old new ch h
    simp only [replaceFirstPos] at h
    by_cases hp : old.isPrefixOf (c :: r)
    · rw [if_pos hp] at h
      rcases List.mem_append.mp h with h | h
      · exact Or.inr h
      · exact Or.inl (List.mem_of_mem_drop h)
    · rw [if_neg hp] at h
      rcases List.mem_cons.mp h with h | h
      · exact Or.inl (by simp [h])
      · rcases ih old new ch h with h | h
        · exact Or.inl (by simp [h])
        · exact Or.inr h

/-- Characters of `replaceFirst` come from the original string or the
replacement text. -/
theorem replaceFirst_subset (s old new : Chars) (ch : Char)
    (h : ch ∈ replaceFirst s old new) : ch ∈ s ∨ ch ∈ new := by
  unfold replaceFirst at h
  by_cases ho : old = []
  · rw [if_pos ho] at h
    rcases List.mem_append.mp h with h | h
    · exact Or.inr h
    · exact Or.inl h
  · rw [if_neg ho] at h
    exact replaceFirstPos_subset s old new ch h

/-- A first-occurrence replacement of a nonempty string by a nonempty text
is nonempty. -/
theorem replaceFirst_ne_nil (s old new : Chars) (hs : s ≠ []) (hn : new ≠ []) :
    replaceFirst s old new ≠ [] := by
  unfold replaceFirst
  by_cases ho : old = []
  · rw [if_pos ho]
    simp [hn]
  · rw [if_neg ho]
    match s, hs with
    | c :: r, _ =>
      simp only [replaceFirstPos]
      by_cases hp : old.isPrefixOf (c :: r)
      · rw [if_pos hp]
        simp [hn]
      · rw [if_neg hp]
        simp

/-- An update that reports a change is a first-occurrence replacement of
the matched text by quote + requested version + quote, for the first
requested package of that name. -/
theorem updateVersion_true (line packageName : Chars) (packages : List Package)
    (q1 ver q2 u : Chars)
    (h : updateVersion line packageName packages q1 ver q2 = (u, true)) :
    ∃ pkg, lookupPackage packageName packages = some pkg ∧
      u = replaceFirst line (q1 ++ ver ++ q2) (q1 ++ pkg.version ++ q2) := by
  unfold updateVersion at h
  split at h
  · exact absurd h (by simp)
  · rename_i pkg0 hl0
    dsimp only [] at h
    split at h
    · exact absurd h (by simp)
    · obtain ⟨hu, _⟩ := Prod.mk.injEq .. ▸ h
      exact ⟨pkg0, hl0, hu.symm⟩

/-- The last element reported by `getLast?` is a member of the list. -/
theorem mem_of_getLast_eq :
    ∀ (l : Chars) (a : Char), l.getLast? = some a → a ∈ l := by
  intro l
  induction l with
  | nil => intro a h; simp at h
  | cons c r ih =>
    intro a h
    cases r with
    | nil =>
      rw [List.getLast?_singleton] at h
      simp [Option.some.inj h]
    | cons c2 r2 =>
      rw [List.getLast?_cons_cons] at h
      exact List.mem_cons_of_mem _ (ih a h)

/-- A nonempty line with no newline character does not end with one. -/
theorem endsWith_false_of_no_newline (l : Chars) (hne : l ≠ [])
    (hnl : '\n' ∉ l) : endsWith '\n' l = false := by
  unfold endsWith
  cases hg : l.getLast? with
  | none => rfl
  | some a =>
    have : a ∈ l := mem_of_getLast_eq l a hg
    have hna : a ≠ '\n' := fun heq => hnl (heq ▸ this)
    simp [hna]

/-- A comment part produced by the hash split is nonempty. -/
theorem startsWithHash_ne_nil (b : Chars) (h : startsWithHash b = true) :
    b ≠ [] := by
  intro hb
  subst hb
  simp [startsWithHash, List.dropWhile] at h

/-- Tokens of the raw line split contain no newline character. -/
theorem splitRaw_no_newline :
    ∀ (c : Chars), ∀ l ∈ splitRaw c, '\n' ∉ l := by
  intro c
  induction c with
  | nil => intro l hl; simp [splitRaw] at hl
  | cons x r ih =>
    intro l hl
    rw [splitRaw] at hl
    by_cases hx : x = '\n'
    · rw [if_pos hx] at hl
      rcases List.mem_cons.mp hl with h | h
      · subst h; simp
      · exact ih l h
    · rw [if_neg hx] at hl
      cases hL : splitRaw r with
      | nil =>
        rw [hL] at hl
        have : l = [x] := by simpa using hl
        subst this
        simp [Ne.symm hx]
      | cons l0 ls =>
        rw [hL] at hl
        rcases List.mem_cons.mp hl with h | h
        · subst h
          intro hmem
          rcases List.mem_cons.mp hmem with h | h
          · exact hx h.symm
          · exact ih l0 (by simp [hL]) h
        · exact ih l (by simp [hL, h])

/-- When the content does not end with a newline, the last raw token is
nonempty. -/
theorem splitRaw_getLast_ne_nil :
    ∀ (c : Chars), endsWith '\n' c = false →
      ∀ ll, (splitRaw c).getLast? = some ll → ll ≠ [] := by
  intro c
  induction c with
  | nil => intro _ ll h; simp [splitRaw] at h
  | cons x r ih =>
    intro hend ll h
    rw [splitRaw] at h
    by_cases hx : x = '\n'
    · subst hx
      rw [if_pos rfl] at h
      cases hr : r with
      | nil =>
        subst hr
        simp [endsWith, List.getLast?_singleton] at hend
      | cons c2 r2 =>
        have hend2 : endsWith '\n' r = false := by
          rw [← endsWith_cons '\n' '\n' r (by simp [hr])]
          exact hend
        have hLne : splitRaw r ≠ [] := by
          rw [Ne, splitRaw_eq_nil_iff]
          simp [hr]
        cases hL : splitRaw r with
        | nil => exact absurd hL hLne
        | cons l0 ls =>
          rw [hL, List.getLast?_cons_cons] at h
          rw [← hL] at h
          exact ih hend2 ll h
    · rw [if_neg hx] at h
      cases hL : splitRaw r with
      | nil =>
        rw [hL] at h
        rw [List.getLast?_singleton] at h
        rw [← Option.some.inj h]
        simp
      | cons l0 ls =>
        rw [hL] at h
        have hrne : r ≠ [] := by
          intro hre
          rw [hre] at hL
          exact absurd hL.symm (by simp [splitRaw])
        have hend2 : endsWith '\n' r = false := by
          rw [← endsWith_cons '\n' x r hrne]
          exact hend
        cases ls with
        | nil =>
          rw [List.getLast?_singleton] at h
          rw [← Option.some.inj h]
          have : l0 ≠ [] := by
            have := ih hend2 l0 (by rw [hL, List.getLast?_singleton])
            exact this
          simp
        | cons l1 ls1 =>
          rw [List.getLast?_cons_cons] at h
          have : (splitRaw r).getLast? = some ll := by
            rw [hL, List.getLast?_cons_cons]
            exact h
          exact ih hend2 ll this

/-- Reassembly with a trailing newline ends with a newline. -/
theorem endsWith_buildOutput_true :
    ∀ (lines : List Chars), lines ≠ [] →
      endsWith '\n' (buildOutput true lines) = true := by
  intro lines
  induction lines with
  | nil => intro h; exact absurd rfl h
  | cons l rest ih =>
    intro _
    cases rest with
    | nil =>
      simp only [buildOutput, if_true]
      rw [endsWith_append '\n' l ['\n'] (by simp)]
      rfl
    | cons l2 ls =>
      simp only [buildOutput]
      rw [endsWith_append '\n' l _ (by simp)]
      rw [endsWith_cons '\n' '\n' _ ?hne]
      · exact ih (by simp)
      · cases ls with
        | nil => simp only [buildOutput, if_true]; simp
        | cons l3 ls3 => simp only [buildOutput]; simp

/-- Reassembly without a trailing newline of newline-free lines whose last
line is nonempty does not end with a newline. -/
theorem endsWith_buildOutput_false :
    ∀ (lines : List Chars) (ll : Chars), (∀ l ∈ lines, '\n' ∉ l) →
      lines.getLast? = some ll → ll ≠ [] →
      endsWith '\n' (buildOutput false lines) = false := by
  intro lines
  induction lines with
  | nil => intro ll _ h _; simp at h
  | cons l rest ih =>
    intro ll hnl hlast hne
    cases rest with
    | nil =>
      rw [List.getLast?_singleton] at hlast
      simp only [buildOutput, Bool.false_eq_true, if_false]
      exact endsWith_false_of_no_newline l
        (by rw [Option.some.inj hlast]; exact hne) (hnl l (by simp))
    | cons l2 ls =>
      rw [List.getLast?_cons_cons] at hlast
      have hBne : buildOutput false (l2 :: ls) ≠ [] := by
        cases ls with
        | nil =>
          simp only [buildOutput, Bool.false_eq_true, if_false]
          rw [List.getLast?_singleton] at hlast
          rw [Option.some.inj hlast]
          exact hne
        | cons l3 ls3 =>
          simp only [buildOutput]
          intro habs
          have := congrArg List.length habs
          simp at this
      simp only [buildOutput]
      rw [endsWith_append '\n' l _ (by simp)]
      rw [endsWith_cons '\n' '\n' _ hBne]
      exact ih ll (fun x hx => hnl x (by simp [hx])) hlast hne

/-- The line loop preserves the number of lines. -/
theorem processLinesFrom_length (d : Dialect) (packages : List Package) :
    ∀ (lines : List Chars) (prevLine? : Option Chars),
      ((processLinesFrom d packages prevLine? lines).1).length = lines.length := by
  intro lines
  induction lines with
  | nil => intro _; rfl
  | cons l rest ih =>
    intro prevLine?
    simp only [processLinesFrom, List.length_cons, ih (some l)]

/-- Every output line of the loop is some input line processed with some
lookback. -/
theorem processLinesFrom_mem (d : Dialect) (packages : List Package) :
    ∀ (lines : List Chars) (prevLine? : Option Chars),
      ∀ out ∈ (processLinesFrom d packages prevLine? lines).1,
        ∃ pr lin, lin ∈ lines ∧ out = (processLine d pr lin packages).1 := by
  intro lines
  induction lines with
  | nil => intro _ out h; simp [processLinesFrom] at h
  | cons l rest ih =>
    intro prevLine? out h
    simp only [processLinesFrom] at h
    rcases List.mem_cons.mp h with h | h
    · exact ⟨prevLine?, l, by simp, h⟩
    · obtain ⟨pr, lin, hmem, hout⟩ := ih (some l) out h
      exact ⟨pr, lin, by simp [hmem], hout⟩

/-- The last output line of the loop is the processed last input line. -/
theorem processLinesFrom_getLast (d : Dialect) (packages : List Package) :
    ∀ (lines : List Chars) (prevLine? : Option Chars), lines ≠ [] →
      ∃ pr ll, lines.getLast? = some ll ∧
        ((processLinesFrom d packages prevLine? lines).1).getLast? =
          some ((processLine d pr ll packages).1) := by
  intro lines
  induction lines with
  | nil => intro _ h; exact absurd rfl h
  | cons l rest ih =>
    intro prevLine? _
    cases rest with
    | nil =>
      exact ⟨prevLine?, l, List.getLast?_singleton l,
        by simp only [processLinesFrom]; exact List.getLast?_singleton _⟩
    | cons l2 ls =>
      obtain ⟨pr, ll, h1, h2⟩ := ih (some l) (by simp)
      refine ⟨pr, ll, by rw [List.getLast?_cons_cons]; exact h1, ?_⟩
      simp only [processLinesFrom]
      rw [List.getLast?_cons_cons]
      exact h2

/-- Characters of the markup inline case's output come from the line or
from a requested version. -/
theorem yamlInline_chars (line : Chars) (packages : List Package) (ch : Char)
    (h : ch ∈ (yamlInline line packages).1) :
    ch ∈ line ∨ ∃ pk ∈ packages, ch ∈ pk.version := by
  unfold yamlInline at h
  split at h
  · exact Or.inl h
  · rename_i lineContent comment hsplit
    split at h
    · exact Or.inl h
    · split at h
      · exact Or.inl h
      · rename_i pre q1 ver q2 post hfind
        split at h
        · rename_i updatedContent hupd
          obtain ⟨pkg, hlk, hu⟩ := updateVersion_true _ _ _ _ _ _ _ hupd
          have hline := findSplit_append startsWithHash line lineContent comment hsplit
          have hdec := findVersionSub_append lineContent pre q1 ver q2 post hfind
          rcases List.mem_append.mp h with hch | hch
          · rw [hu] at hch
            rcases replaceFirst_subset _ _ _ ch hch with hc2 | hc2
            · exact Or.inl (by rw [hline]; exact List.mem_append.mpr (Or.inl hc2))
            · rcases List.mem_append.mp hc2 with hc3 | hc3
              · rcases List.mem_append.mp hc3 with hc4 | hc4
                · refine Or.inl ?_
                  rw [hline, hdec]
                  simp only [List.mem_append]
                  tauto
                · exact Or.inr ⟨pkg, lookupPackage_mem _ _ _ hlk, hc4⟩
              · refine Or.inl ?_
                rw [hline, hdec]
                simp only [List.mem_append]
                tauto
          · exact Or.inl (by rw [hline]; exact List.mem_append.mpr (Or.inr hch))
        · exact Or.inl h

/-- Characters of the markup previous-line case's output come from the
current line or from a requested version. -/
theorem yamlPrev_chars (prevLine currentLine : Chars) (packages : List Package)
    (ch : Char) (h : ch ∈ (yamlPrev prevLine currentLine packages).1) :
    ch ∈ currentLine ∨ ∃ pk ∈ packages, ch ∈ pk.version := by
  unfold yamlPrev at h
  split at h
  · exact Or.inl h
  · split at h
    · exact Or.inl h
    · rename_i pre q1 ver q2 post hfind
      split at h
      · rename_i updatedContent hupd
        obtain ⟨pkg, hlk, hu⟩ := updateVersion_true _ _ _ _ _ _ _ hupd
        have hdec := findVersionSub_append currentLine pre q1 ver q2 post hfind
        rw [hu] at h
        rcases replaceFirst_subset _ _ _ ch h with hc2 | hc2
        · exact Or.inl hc2
        · rcases List.mem_append.mp hc2 with hc3 | hc3
          · rcases List.mem_append.mp hc3 with hc4 | hc4
            · refine Or.inl ?_
              rw [hdec]
              simp only [List.mem_append]
              tauto
            · exact Or.inr ⟨pkg, lookupPackage_mem _ _ _ hlk, hc4⟩
          · refine Or.inl ?_
            rw [hdec]
            simp only [List.mem_append]
            tauto
      · exact Or.inl h

/-- Characters of a processed markup line come from the line or from a
requested version. -/
theorem processLine_yaml_chars (prevLine? : Option Chars) (l : Chars)
    (packages : List Package) (ch : Char)
    (h : ch ∈ (processLine .yaml prevLine? l packages).1) :
    ch ∈ l ∨ ∃ pk ∈ packages, ch ∈ pk.version := by
  unfold processLine at h
  dsimp only [inlineStep, prevStep] at h
  split at h
  · exact yamlInline_chars l packages ch h
  · split at h
    · exact Or.inl h
    · exact yamlPrev_chars _ l packages ch h

/-- The markup inline case maps a nonempty line to a nonempty line. -/
theorem yamlInline_ne_nil (line : Chars) (packages : List Package)
    (hl : line ≠ []) : (yamlInline line packages).1 ≠ [] := by
  unfold yamlInline
  split
  · exact hl
  · rename_i lineContent comment hsplit
    split
    · exact hl
    · split
      · exact hl
      · split
        · rename_i updatedContent hupd
          have hcom : comment ≠ [] :=
            startsWithHash_ne_nil comment
              (findSplit_pred startsWithHash line lineContent comment hsplit)
          simp [hcom]
        · exact hl

/-- The markup previous-line case maps a nonempty line to a nonempty line
when every requested version is nonempty. -/
theorem yamlPrev_ne_nil (prevLine currentLine : Chars) (packages : List Package)
    (hcur : currentLine ≠ []) (hver : ∀ pk ∈ packages, pk.version ≠ []) :
    (yamlPrev prevLine currentLine packages).1 ≠ [] := by
  unfold yamlPrev
  split
  · exact hcur
  · split
    · exact hcur
    · split
      · rename_i pre q1 ver q2 post hfind updatedContent hupd
        obtain ⟨pkg, hlk, hu⟩ := updateVersion_true _ _ _ _ _ _ _ hupd
        rw [hu]
        exact replaceFirst_ne_nil _ _ _ hcur
          (by simp [hver pkg (lookupPackage_mem _ _ _ hlk)])
      · exact hcur

/-- A processed markup line is nonempty when the input line is and every
requested version is nonempty. -/
theorem processLine_yaml_ne_nil (prevLine? : Option Chars) (l : Chars)
    (packages : List Package) (hl : l ≠ [])
    (hver : ∀ pk ∈ packages, pk.version ≠ []) :
    (processLine .yaml prevLine? l packages).1 ≠ [] := by
  unfold processLine
  dsimp only [inlineStep, prevStep]
  split
  · exact yamlInline_ne_nil l packages hl
  · split
    · exact hl
    · exact yamlPrev_ne_nil _ l packages hl hver

/-- The env value update fires on an unquoted value: when the annotated
name's first match in the requested list is `pkg`, the value has no quoted
shape, its first whitespace-delimited token matches the strict version
pattern and differs from the requested version, the token is replaced. -/
theorem updateEnvValue_unquoted (value name : Chars) :
    ∀ (packages : List Package) (pkg : Package) (lead tok trail : Chars),
      lookupPackage name packages = some pkg →
      quotedValueSplit value = none →
      spaceVersionSplit value = some (lead, tok, trail) →
      strictMatch tok = true → tok ≠ pkg.version →
      updateEnvValue value name packages =
        (lead ++ pkg.version ++ trail, true) := by
  intro packages
  induction packages with
  | nil => intro pkg lead tok trail hl _ _ _ _; simp [lookupPackage] at hl
  | cons p rest ih =>
    intro pkg lead tok trail hl hq hs hm hne
    simp only [lookupPackage] at hl
    by_cases hp : p.name = name
    · rw [if_pos hp] at hl
      have hpk : p = pkg := Option.some.inj hl
      subst hpk
      simp [updateEnvValue, hp, hq, hs, hm, hne]
    · rw [if_neg hp] at hl
      simp only [updateEnvValue, if_neg hp]
      exact ih pkg lead tok trail hl hq hs hm hne

/-- The env value update fires on a quoted value: when the annotated
name's first match in the requested list is `pkg` and the inner text
between the quotes matches the strict version pattern and differs from the
requested version, the inner text is replaced between the original
quotes. -/
theorem updateEnvValue_quoted (value name : Chars) :
    ∀ (packages : List Package) (pkg : Package) (lead : Chars) (q1 : Char)
        (inner : Chars) (q2 : Char) (trail : Chars),
      lookupPackage name packages = some pkg →
      quotedValueSplit value = some (lead, q1, inner, q2, trail) →
      strictMatch inner = true → inner ≠ pkg.version →
      updateEnvValue value name packages =
        (lead ++ q1 :: pkg.version ++ q2 :: trail, true) := by
  intro packages
  induction packages with
  | nil => intro pkg lead q1 inner q2 trail hl _ _ _; simp [lookupPackage] at hl
  | cons p rest ih =>
    intro pkg lead q1 inner q2 trail hl hq hm hne
    simp only [lookupPackage] at hl
    by_cases hp : p.name = name
    · rw [if_pos hp] at hl
      have hpk : p = pkg := Option.some.inj hl
      subst hpk
      simp [updateEnvValue, hp, hq, hm, hne]
    · rw [if_neg hp] at hl
      simp only [updateEnvValue, if_neg hp]
      exact ih pkg lead q1 inner q2 trail hl hq hm hne

/-- Claim C1 (code bug): the engine is not idempotent.  `VersionPattern`
matches only the partial token `1.0.0+a` inside `v: 1.0.0+a+b` (its build
part cannot cross the second `+`), so the first run leaves the residue `+b`
behind (`v: 2.0.0+b`) and the second run, far from returning
`changed=false` with byte-identical content, matches `2.0.0+b`, reports
another change and rewrites the line again. -/
theorem second_run_rewrites_split_build_token :
    updateFileContent .yaml ("# depup package=p\nv: 1.0.0+a+b\n".data)
        [⟨"p".data, "2.0.0".data⟩] =
      ("# depup package=p\nv: 2.0.0+b\n".data, true) ∧
    updateFileContent .yaml ("# depup package=p\nv: 2.0.0+b\n".data)
        [⟨"p".data, "2.0.0".data⟩] =
      ("# depup package=p\nv: 2.0.0\n".data, true) ∧
    ("# depup package=p\nv: 2.0.0\n".data : Chars) ≠
      "# depup package=p\nv: 2.0.0+b\n".data := by
  refine ⟨by decide, by decide, by decide⟩

/-- Claim C2 (code bug): `VersionPattern` is built from `\d+` components, so
the leading-zero literal `01.2.3` does match it, and a line `version: 01.2.3`
under a matching annotation with requested version `1.2.3` is rewritten with
`changed=true` — contrary to the claim, to the spec's version grammar, and
to the repository's own test `Malformed version should not match`. -/
theorem leading_zero_version_is_rewritten :
    updateFileContent .yaml ("# depup package=test-pkg\nversion: 01.2.3\n".data)
        [⟨"test-pkg".data, "1.2.3".data⟩] =
      ("# depup package=test-pkg\nversion: 1.2.3\n".data, true) := by
  decide

/-- Claim C3 (confirmed): on the annotated line `version = ">=4.0.0"` with
requested version `4.5.0` for `aws-provider`, the brace-dialect engine
produces `version = ">=4.5.0"` and reports a change: the version-pattern
match starts at the first digit, so the `>=` operator before it stays in
place, the quotes around the matched token are reused, and every other byte
of the line is untouched. -/
theorem constraint_prefix_preserved_update :
    updateFileContent .hcl ("# depup package=aws-provider\nversion = \">=4.0.0\"\n".data)
        [⟨"aws-provider".data, "4.5.0".data⟩] =
      ("# depup package=aws-provider\nversion = \">=4.5.0\"\n".data, true) := by
  decide

/-- Claim C5 (code bug): `versionPattern` is not anchored, unlike
`namePattern`, so `Package.Validate` accepts the malformed version `01.2.3`
(the unanchored pattern finds `1.2.3` inside it) and `Updater.Update`'s
validation prefix lets the batch proceed instead of aborting it. -/
theorem validate_accepts_leading_zero_version :
    packageValid ⟨"test-pkg".data, "01.2.3".data⟩ = true ∧
    updateValidates [⟨"test-pkg".data, "01.2.3".data⟩] = true := by
  refine ⟨by decide, by decide⟩

/-- Claim C9 (code bug): a file named `.env.production` is accepted by
`isFileExtensionSupported` (the glob `.env.*` matches its base name), but
`getFileUpdater` is called with `filepath.Ext` = `.production`, which no
updater supports, so `Update` fails with the no-updater-found dispatch
error; a plain `.env` extension dispatches to the env updater. -/
theorem env_glob_dispatch_fails :
    dispatchFile ".env.production".data =
      .error ("no updater found for file extension: .production".data) ∧
    dispatchFile "app.env".data = .ok (some .dotenv) := by
  refine ⟨by decide, by decide⟩

/-- Claim C6, counterexample: the inline annotation is not always the one
honored.  On `version: 1.0.0 # depup package=a` whose inline annotation
names a package that is not requested, the engine falls through to the
preceding line's annotation `# depup package=b` and rewrites the line; and
in the brace dialect the comment-only line `# 1.0.0 // depup package=p` is
itself rewritten through the inline case (the `//`-split regex puts
`# 1.0.0` in the content part), refuting both halves of the claim. -/
theorem previous_line_overrides_unmatched_inline :
    updateFileContent .yaml
        ("# depup package=b\nversion: 1.0.0 # depup package=a\n".data)
        [⟨"b".data, "2.0.0".data⟩] =
      ("# depup package=b\nversion: 2.0.0 # depup package=a\n".data, true) ∧
    updateFileContent .hcl ("# 1.0.0 // depup package=p\n".data)
        [⟨"p".data, "2.0.0".data⟩] =
      ("# 2.0.0 // depup package=p\n".data, true) := by
  refine ⟨by decide, by decide⟩

/-- Claim C7, counterexample: a file with no annotation comment is not
always returned byte-identical.  The line scanner strips the carriage
return of a CRLF line ending, so `v: 1.0.0\r\n` comes back as
`v: 1.0.0\n` (still with `changed=false`). -/
theorem no_op_altered_by_carriage_return :
    updateFileContent .yaml ("v: 1.0.0\r\n".data) [] =
      ("v: 1.0.0\n".data, false) ∧
    ("v: 1.0.0\n".data : Chars) ≠ "v: 1.0.0\r\n".data := by
  refine ⟨by decide, by decide⟩

/-- Claim C8, counterexample: trailing-newline presence is not always
preserved.  The scanner strips a trailing carriage return, so `a\n\r`
(which does not end with a newline) is reassembled as `a\n` (which does);
and a requested version containing a newline character smuggles a trailing
newline into a file that had none. -/
theorem trailing_newline_flipped_by_cr :
    updateFileContent .yaml ("a\n\r".data) [] = ("a\n".data, false) ∧
    endsWith '\n' ("a\n\r".data) = false ∧
    endsWith '\n' ("a\n".data) = true ∧
    updateFileContent .yaml ("# depup package=p\nv: 1.0.0".data)
        [⟨"p".data, "2.0.0\n".data⟩] =
      ("# depup package=p\nv: 2.0.0\n".data, true) ∧
    endsWith '\n' ("# depup package=p\nv: 1.0.0".data) = false := by
  refine ⟨by decide, by decide, by decide, by decide, by decide⟩

/-- Claim C4 (confirmed): for every dialect, file system, existing file and
package list, `UpdateFile` in dry-run mode returns exactly the `(content,
changed)` pair of the pure computation — the same pair a non-dry run
returns — and leaves the file system untouched, while the non-dry run
writes the output back exactly when a change occurred; the write is the
only branch gated by the flag. -/
theorem dry_run_same_result_no_write (d : Dialect) (fs : Fs) (filePath : Path)
    (packages : List Package) (content : Chars)
    (h : fs filePath = some content) :
    updateFile d fs filePath packages ⟨true⟩ =
      some (updateFileContent d content packages, fs) ∧
    updateFile d fs filePath packages ⟨false⟩ =
      some (updateFileContent d content packages,
        if (updateFileContent d content packages).2 then
          (fun p => if p = filePath then some (updateFileContent d content packages).1
            else fs p)
        else fs) := by
  constructor
  · simp only [updateFile, h, Bool.not_true, Bool.and_false, Bool.false_eq_true,
      if_false]
  · simp only [updateFile, h, Bool.not_false, Bool.and_true]

/-- Witness for the dry-run theorem at the spec's fixture: the file holds
`version = "1.0.0" # depup package=test-pkg`, the requested version is
`2.0.0`, the dry run reports `changed=true` with the rewritten string, and
the file system it returns is the original one. -/
theorem dry_run_same_result_no_write_witness :
    (fun p => if p = "m.tf".data then
        some ("version = \"1.0.0\" # depup package=test-pkg".data) else none : Fs)
      ("m.tf".data) = some ("version = \"1.0.0\" # depup package=test-pkg".data) ∧
    updateFile .hcl
      (fun p => if p = "m.tf".data then
        some ("version = \"1.0.0\" # depup package=test-pkg".data) else none)
      ("m.tf".data) [⟨"test-pkg".data, "2.0.0".data⟩] ⟨true⟩ =
      some (updateFileContent .hcl
        ("version = \"1.0.0\" # depup package=test-pkg".data)
        [⟨"test-pkg".data, "2.0.0".data⟩],
        (fun p => if p = "m.tf".data then
          some ("version = \"1.0.0\" # depup package=test-pkg".data) else none)) ∧
    updateFileContent .hcl ("version = \"1.0.0\" # depup package=test-pkg".data)
        [⟨"test-pkg".data, "2.0.0".data⟩] =
      ("version = \"2.0.0\" # depup package=test-pkg".data, true) :=
  ⟨by decide,
    (dry_run_same_result_no_write .hcl _ _ _ _ (by decide)).1,
    by decide⟩

/-- Claim C6 as amended (corrected): (1) whenever the inline case of a line
yields an update, that update is the whole result and the preceding line is
never consulted — but when the inline case yields no update, the engine
falls through to the preceding line's annotation; (2) a line whose first
non-whitespace character is `#` is never rewritten through the inline case
in the markup dialect, nor (3) in the env dialect, whose guard also skips
blank lines — while in the brace dialect a comment-only line mixing the two
comment styles can be rewritten inline, as the counterexample shows. -/
theorem inline_update_wins_and_hash_lines_inert :
    (∀ (d : Dialect) (prevLine currentLine : Chars) (packages : List Package),
      (inlineStep d currentLine packages).2 = true →
      processLine d (some prevLine) currentLine packages =
        inlineStep d currentLine packages) ∧
    (∀ (line : Chars) (packages : List Package),
      (line.dropWhile goIsSpace).head? = some '#' →
      yamlInline line packages = (line, false)) ∧
    (∀ (line : Chars) (packages : List Package),
      (line.dropWhile goIsSpace).head? = some '#' →
      dotenvInline line packages = (line, false)) := by
  refine ⟨?_, ?_, ?_⟩
  · intro d prevLine currentLine packages h
    simp only [processLine, h, if_true]
  · intro line packages hhead
    obtain ⟨t, ht⟩ : ∃ t, line.dropWhile goIsSpace = '#' :: t := by
      cases hd : line.dropWhile goIsSpace with
      | nil => rw [hd] at hhead; exact absurd hhead (by simp)
      | cons c t =>
        rw [hd] at hhead
        have hc : c = '#' := by simpa using hhead
        exact ⟨t, by rw [hc]⟩
    set w := line.takeWhile goIsSpace with hw
    have hline : line = w ++ '#' :: t := by
      rw [hw, ← ht, List.takeWhile_append_dropWhile]
    have hdrop : line.drop w.length = '#' :: t := by
      rw [hline]
      exact List.drop_left _ _
    have hpred : startsWithHash (line.drop w.length) = true := by
      rw [hdrop]; rfl
    cases hsplit : findSplit startsWithHash line with
    | none =>
      have := findSplit_isSome_of_drop startsWithHash line _ hpred
      rw [hsplit] at this
      exact absurd this (by simp)
    | some cc =>
      obtain ⟨content, comment⟩ := cc
      have hlen : content.length ≤ w.length := by
        by_contra hgt
        have := findSplit_min startsWithHash line content comment hsplit
          w.length (by omega)
        rw [hpred] at this
        exact absurd this (by simp)
      have hcontent : content = line.take content.length := by
        have happ := findSplit_append startsWithHash line content comment hsplit
        conv_rhs => rw [happ]
        exact (List.take_left _ _).symm
      have hws : ∀ c ∈ content, goIsSpace c := by
        intro c hc
        rw [hcontent] at hc
        have hmem : c ∈ w := by
          have h1 : line.take content.length = w.take content.length := by
            conv_lhs => rw [hline]
            rw [List.take_append_eq_append_take,
              Nat.sub_eq_zero_of_le hlen, List.take_zero, List.append_nil]
          rw [h1] at hc
          exact List.mem_of_mem_take hc
        exact List.mem_takeWhile_imp (hw ▸ hmem)
      simp only [yamlInline, splitAtHashComment, hsplit]
      cases hname : findDepupHash comment with
      | none => rfl
      | some packageName =>
        rw [findVersionSub_ws_none content hws]
  · intro line packages hhead
    have hguard : dotenvIsBlankOrComment line = true := by
      unfold dotenvIsBlankOrComment
      cases hd : line.dropWhile goIsSpace with
      | nil => rfl
      | cons c t =>
        rw [hd] at hhead
        have : c = '#' := by simpa using hhead
        simp [this]
    simp only [dotenvInline, hguard, if_true]

/-- Witness for the amended line-pair resolution theorem: the inline update
on `version: 1.0.0 # depup package=p` wins over any preceding line, and the
comment lines `# note 1.2.3` are inert under the markup and env inline
cases. -/
theorem inline_update_wins_and_hash_lines_inert_witness :
    (inlineStep .yaml ("version: 1.0.0 # depup package=p".data)
        [⟨"p".data, "2.0.0".data⟩]).2 = true ∧
    processLine .yaml (some ("# depup package=q".data))
        ("version: 1.0.0 # depup package=p".data) [⟨"p".data, "2.0.0".data⟩] =
      inlineStep .yaml ("version: 1.0.0 # depup package=p".data)
        [⟨"p".data, "2.0.0".data⟩] ∧
    (("# note 1.2.3".data : Chars).dropWhile goIsSpace).head? = some '#' ∧
    yamlInline ("# note 1.2.3".data) [⟨"p".data, "1.0.0".data⟩] =
      ("# note 1.2.3".data, false) ∧
    dotenvInline ("# note 1.2.3".data) [⟨"p".data, "1.0.0".data⟩] =
      ("# note 1.2.3".data, false) :=
  ⟨by decide,
    inline_update_wins_and_hash_lines_inert.1 .yaml _ _ _ (by decide),
    by decide,
    inline_update_wins_and_hash_lines_inert.2.1 _ _ (by decide),
    inline_update_wins_and_hash_lines_inert.2.2 _ _ (by decide)⟩

/-- Claim C7 as amended (corrected): in every dialect, `UpdateFile` on a
file none of whose lines contains an annotation comment returns
`changed=false` and performs no write — unconditionally; the returned
content is moreover byte-identical to the original whenever no scanned
line ends with a carriage return, the condition the CRLF counterexample
forces. -/
theorem no_op_without_annotations (d : Dialect) (fs : Fs) (filePath : Path)
    (packages : List Package) (options : FileUpdaterOptions) (content : Chars)
    (h : fs filePath = some content)
    (hA : ∀ l ∈ scanLines content, noAnnot d l) :
    ∃ out,
      updateFile d fs filePath packages options = some ((out, false), fs) ∧
      ((∀ l ∈ splitRaw content, endsWith '\r' l = false) → out = content) := by
  have hproc : processLinesFrom d packages none (scanLines content) =
      (scanLines content, false) :=
    processLinesFrom_noAnnot d packages _ none hA (fun p hp => absurd hp (by simp))
  have hcontent : updateFileContent d content packages =
      (buildOutput (hasTrailingNL content) (scanLines content), false) := by
    unfold updateFileContent processLines
    rw [hproc]
  refine ⟨buildOutput (hasTrailingNL content) (scanLines content), ?_, ?_⟩
  · unfold updateFile
    rw [h]
    simp only [hcontent, Bool.false_and, Bool.false_eq_true, if_false]
  · intro hCR
    rw [scanLines_eq_splitRaw content hCR]
    simp only [hasTrailingNL]
    exact buildOutput_splitRaw content

/-- Witness for the no-op theorem on an annotation-free two-line markup
file: no change, no write, and — the file being free of carriage returns —
the returned content is the original. -/
theorem no_op_without_annotations_witness :
    (fun p => if p = "a.yaml".data then
        some ("version: 1.0.0\nother: value\n".data) else none : Fs)
      ("a.yaml".data) = some ("version: 1.0.0\nother: value\n".data) ∧
    (∀ l ∈ scanLines ("version: 1.0.0\nother: value\n".data), noAnnot .yaml l) ∧
    (∃ out,
      updateFile .yaml
        (fun p => if p = "a.yaml".data then
          some ("version: 1.0.0\nother: value\n".data) else none)
        ("a.yaml".data) [⟨"test-pkg".data, "2.0.0".data⟩] ⟨false⟩ =
        some ((out, false),
          (fun p => if p = "a.yaml".data then
            some ("version: 1.0.0\nother: value\n".data) else none)) ∧
      ((∀ l ∈ splitRaw ("version: 1.0.0\nother: value\n".data),
        endsWith '\r' l = false) →
        out = "version: 1.0.0\nother: value\n".data)) :=
  ⟨by decide, by decide,
    no_op_without_annotations .yaml _ _ _ _ _ (by decide) (by decide)⟩

/-- Claim C10 counterexample: in the env dialect a previous-line annotation
does NOT govern a following bare version line.  With the annotation
`# depup package=p` on line 1 and the lone token `1.0.0` on line 2 — no
inline update of its own, the annotation resolved, the token matching the
strict version pattern and differing from the requested `2.0.0` — the
engine still returns the file unchanged with changed=false, because the
current line fails the dotenv KEY=VALUE split; so the claim's "in every
dialect ... is then replaced" is false. -/
theorem dotenv_bare_version_line_not_replaced :
    updateFileContent .dotenv ("# depup package=p\n1.0.0\n".data)
        [⟨"p".data, "2.0.0".data⟩] =
      ("# depup package=p\n1.0.0\n".data, false) ∧
    (inlineStep .dotenv ("1.0.0".data) [⟨"p".data, "2.0.0".data⟩]).2 = false ∧
    findDepupHash ("# depup package=p".data) = some ("p".data) ∧
    splitKeyValue ("1.0.0".data) = none ∧
    strictMatch ("1.0.0".data) = true ∧
    stripConstraints ("1.0.0".data) ≠ ("2.0.0".data : Chars) := by
  refine ⟨by decide, by decide, by decide, by decide, by decide, by decide⟩

/-- Claim C10 as amended (corrected): (1) in every dialect, whenever a line
has no inline update of its own and the previous-line case fires for the
ORIGINAL preceding line — whose annotation may sit anywhere in it,
including as the trailing comment of a value line that was itself just
updated — the line loop emits the rewritten line at that position and
reports a change; (2, 3) in the markup and brace dialects the previous-line
case rewrites the first version token of the current line with the
requested version, quotes reused, whenever the preceding line carries an
annotation naming a requested package whose version differs from the
normalized current one; (4, 5) in the env dialect the previous-line case
fires only through the KEY=VALUE split of the current line: when it parses
and the value's token (unquoted or quoted) matches the strict version
pattern and differs from the requested version, the value is rewritten;
(6) when the current line has no KEY=VALUE shape — e.g. a bare version
token — it is left unchanged with no change reported, whatever the
previous line says. -/
theorem previous_line_comment_governs_next_line :
    (∀ (d : Dialect) (packages : List Package) (pre post : List Chars)
        (p c l' : Chars) (prev0 : Option Chars),
      (inlineStep d c packages).2 = false →
      prevStep d p c packages = (l', true) →
      ∃ processedPre q,
        processedPre.length = pre.length ∧
        (processLinesFrom d packages prev0 (pre ++ p :: c :: post)).1 =
          processedPre ++ q :: l' ::
            (processLinesFrom d packages (some c) post).1 ∧
        (processLinesFrom d packages prev0 (pre ++ p :: c :: post)).2 = true) ∧
    (∀ (prevLine currentLine : Chars) (packages : List Package) (name : Chars)
        (pre q1 ver q2 post : Chars) (pkg : Package),
      findDepupHash prevLine = some name →
      findVersionSub currentLine = some (pre, q1, ver, q2, post) →
      lookupPackage name packages = some pkg →
      stripConstraints ver ≠ pkg.version →
      yamlPrev prevLine currentLine packages =
        (replaceFirst currentLine (q1 ++ ver ++ q2) (q1 ++ pkg.version ++ q2),
          true)) ∧
    (∀ (prevLine currentLine : Chars) (packages : List Package) (name : Chars)
        (pre q1 ver q2 post : Chars) (pkg : Package),
      hclFindName prevLine = some name →
      findVersionSub currentLine = some (pre, q1, ver, q2, post) →
      lookupPackage name packages = some pkg →
      stripConstraints ver ≠ pkg.version →
      hclPrev prevLine currentLine packages =
        (replaceFirst currentLine (q1 ++ ver ++ q2) (q1 ++ pkg.version ++ q2),
          true)) ∧
    (∀ (prevLine currentLine : Chars) (packages : List Package) (pkg : Package)
        (name key value lead tok trail : Chars),
      dotenvIsBlankOrComment currentLine = false →
      findDepupHash prevLine = some name →
      splitKeyValue currentLine = some (key, value) →
      lookupPackage name packages = some pkg →
      quotedValueSplit value = none →
      spaceVersionSplit value = some (lead, tok, trail) →
      strictMatch tok = true → tok ≠ pkg.version →
      dotenvPrev prevLine currentLine packages =
        (key ++ '=' :: (lead ++ pkg.version ++ trail), true)) ∧
    (∀ (prevLine currentLine : Chars) (packages : List Package) (pkg : Package)
        (name key value lead : Chars) (q1 : Char) (inner : Chars) (q2 : Char)
        (trail : Chars),
      dotenvIsBlankOrComment currentLine = false →
      findDepupHash prevLine = some name →
      splitKeyValue currentLine = some (key, value) →
      lookupPackage name packages = some pkg →
      quotedValueSplit value = some (lead, q1, inner, q2, trail) →
      strictMatch inner = true → inner ≠ pkg.version →
      dotenvPrev prevLine currentLine packages =
        (key ++ '=' :: (lead ++ q1 :: pkg.version ++ q2 :: trail), true)) ∧
    (∀ (prevLine currentLine : Chars) (packages : List Package),
      splitKeyValue currentLine = none →
      dotenvPrev prevLine currentLine packages = (currentLine, false)) := by
  refine ⟨?_, ?_, ?_, ?_, ?_, ?_⟩
  · intro d packages pre post p c l' prev0 hinl hprev
    induction pre generalizing prev0 with
    | nil =>
      refine ⟨[], (processLine d prev0 p packages).1, rfl, ?_, ?_⟩
      · simp only [List.nil_append, processLinesFrom]
        have hc : processLine d (some p) c packages = (l', true) := by
          simp only [processLine, hinl, Bool.false_eq_true, if_false]
          exact hprev
        simp only [hc]
      · simp only [List.nil_append, processLinesFrom]
        have hc : processLine d (some p) c packages = (l', true) := by
          simp only [processLine, hinl, Bool.false_eq_true, if_false]
          exact hprev
        simp only [hc, Bool.true_or, Bool.or_true]
    | cons a pre ih =>
      obtain ⟨pp, q, hlen, hlist, hflag⟩ := ih (some a)
      refine ⟨(processLine d prev0 a packages).1 :: pp, q, by simp [hlen], ?_, ?_⟩
      · simp only [List.cons_append, processLinesFrom, List.append_eq, hlist]
      · simp only [List.cons_append, processLinesFrom, List.append_eq, hflag,
          Bool.or_true]
  · intro prevLine currentLine packages name pre q1 ver q2 post pkg
      h1 h2 h3 h4
    simp only [yamlPrev, h1, h2, updateVersion, h3, if_neg h4]
  · intro prevLine currentLine packages name pre q1 ver q2 post pkg
      h1 h2 h3 h4
    simp only [hclPrev, h1, h2, updateVersion, h3, if_neg h4]
  · intro prevLine currentLine packages pkg name key value lead tok trail
      hb hn hk hl hq hs hm hne
    have hu := updateEnvValue_unquoted value name packages pkg lead tok trail
      hl hq hs hm hne
    simp only [dotenvPrev, hb, Bool.false_eq_true, if_false, hn, hk, hu]
  · intro prevLine currentLine packages pkg name key value lead q1 inner q2
      trail hb hn hk hl hq hm hne
    have hu := updateEnvValue_quoted value name packages pkg lead q1 inner q2
      trail hl hq hm hne
    simp only [dotenvPrev, hb, Bool.false_eq_true, if_false, hn, hk, hu]
  · intro prevLine currentLine packages hk
    simp only [dotenvPrev, hk]
    by_cases hb : dotenvIsBlankOrComment currentLine = true
    · simp [hb]
    · simp only [Bool.not_eq_true] at hb
      simp only [hb, Bool.false_eq_true, if_false]
      cases findDepupHash prevLine <;> rfl

/-- Witness for the previous-line theorem: the inline-annotated line
`version: 1.0.0 # depup package=p` is updated, and its trailing annotation
also governs the following line `other: 3.0.0`, so one annotation causes
replacements on two consecutive lines; and in the env dialect the
annotation `# depup package=p` rewrites the following `VERSION=1.0.0`
through the KEY=VALUE split. -/
theorem previous_line_comment_governs_next_line_witness :
    (inlineStep .yaml ("other: 3.0.0".data) [⟨"p".data, "2.0.0".data⟩]).2 =
      false ∧
    prevStep .yaml ("version: 1.0.0 # depup package=p".data)
        ("other: 3.0.0".data) [⟨"p".data, "2.0.0".data⟩] =
      ("other: 2.0.0".data, true) ∧
    (∃ processedPre q,
      processedPre.length = List.length ([] : List Chars) ∧
      (processLinesFrom .yaml [⟨"p".data, "2.0.0".data⟩] none
          ([] ++ ("version: 1.0.0 # depup package=p".data) ::
            ("other: 3.0.0".data) :: [])).1 =
        processedPre ++ q :: ("other: 2.0.0".data) ::
          (processLinesFrom .yaml [⟨"p".data, "2.0.0".data⟩]
            (some ("other: 3.0.0".data)) []).1 ∧
      (processLinesFrom .yaml [⟨"p".data, "2.0.0".data⟩] none
          ([] ++ ("version: 1.0.0 # depup package=p".data) ::
            ("other: 3.0.0".data) :: [])).2 = true) ∧
    updateFileContent .yaml
        ("version: 1.0.0 # depup package=p\nother: 3.0.0\n".data)
        [⟨"p".data, "2.0.0".data⟩] =
      ("version: 2.0.0 # depup package=p\nother: 2.0.0\n".data, true) ∧
    dotenvPrev ("# depup package=p".data) ("VERSION=1.0.0".data)
        [⟨"p".data, "2.0.0".data⟩] = ("VERSION=2.0.0".data, true) :=
  ⟨by decide, by decide,
    previous_line_comment_governs_next_line.1 .yaml _ [] [] _ _ _ none
      (by decide) (by decide),
    by decide,
    previous_line_comment_governs_next_line.2.2.2.1
      ("# depup package=p".data) ("VERSION=1.0.0".data)
      [⟨"p".data, "2.0.0".data⟩] ⟨"p".data, "2.0.0".data⟩
      ("p".data) ("VERSION".data) ("1.0.0".data) [] ("1.0.0".data) []
      (by decide) (by decide) (by decide) (by decide) (by decide) (by decide)
      (by decide) (by decide)⟩

/-- Claim C8 as amended (corrected): for the markup updater, the returned
content — and the content at the file's path afterwards, written or not —
ends with a newline exactly when the original content did, provided no
scanned line ends with a carriage return and every requested version is
nonempty and newline-free (the conditions the two counterexamples
force). -/
theorem trailing_newline_preserved (fs : Fs) (filePath : Path)
    (packages : List Package) (options : FileUpdaterOptions) (content : Chars)
    (h : fs filePath = some content)
    (hCR : ∀ l ∈ splitRaw content, endsWith '\r' l = false)
    (hver : ∀ pk ∈ packages, pk.version ≠ [] ∧ '\n' ∉ pk.version) :
    ∃ out upd fs',
      updateFile .yaml fs filePath packages options = some ((out, upd), fs') ∧
      endsWith '\n' out = endsWith '\n' content ∧
      ∃ w, fs' filePath = some w ∧ endsWith '\n' w = endsWith '\n' content := by
  have hscan := scanLines_eq_splitRaw content hCR
  have hfst : (updateFileContent .yaml content packages).1 =
      buildOutput (endsWith '\n' content)
        ((processLinesFrom .yaml packages none (scanLines content)).1) := rfl
  have hmain : endsWith '\n' (updateFileContent .yaml content packages).1 =
      endsWith '\n' content := by
    rw [hfst, hscan]
    by_cases hc : content = []
    · subst hc
      rfl
    · have hLne : splitRaw content ≠ [] := by
        rw [Ne, splitRaw_eq_nil_iff]; exact hc
      have hPne : (processLinesFrom .yaml packages none (splitRaw content)).1 ≠ [] := by
        intro habs
        have := processLinesFrom_length .yaml packages (splitRaw content) none
        rw [habs] at this
        exact hLne (List.length_eq_zero.mp this.symm)
      cases he : endsWith '\n' content with
      | true => exact endsWith_buildOutput_true _ hPne
      | false =>
        have hnlP : ∀ l ∈ (processLinesFrom .yaml packages none (splitRaw content)).1,
            '\n' ∉ l := by
          intro l hl hmem
          obtain ⟨pr, lin, hlin, hout⟩ :=
            processLinesFrom_mem .yaml packages (splitRaw content) none l hl
          rw [hout] at hmem
          rcases processLine_yaml_chars pr lin packages '\n' hmem with hbad | hbad
          · exact splitRaw_no_newline content lin hlin hbad
          · obtain ⟨pk, hpk, hpkmem⟩ := hbad
            exact (hver pk hpk).2 hpkmem
        obtain ⟨pr, ll, hll, hPl⟩ :=
          processLinesFrom_getLast .yaml packages (splitRaw content) none hLne
        have hllne : ll ≠ [] := splitRaw_getLast_ne_nil content he ll hll
        have hlastne : (processLine .yaml pr ll packages).1 ≠ [] :=
          processLine_yaml_ne_nil pr ll packages hllne
            (fun pk hpk => (hver pk hpk).1)
        exact endsWith_buildOutput_false _ _ hnlP hPl hlastne
  refine ⟨(updateFileContent .yaml content packages).1,
    (updateFileContent .yaml content packages).2, ?_, ?_, hmain, ?_⟩
  · exact if (updateFileContent .yaml content packages).2 && !options.dryRun then
      (fun p => if p = filePath then
        some (updateFileContent .yaml content packages).1 else fs p)
      else fs
  · simp only [updateFile, h]
  · by_cases hw : ((updateFileContent .yaml content packages).2 &&
        !options.dryRun) = true
    · rw [if_pos hw]
      exact ⟨(updateFileContent .yaml content packages).1, by simp, hmain⟩
    · rw [if_neg hw]
      exact ⟨content, h, rfl⟩

/-- Witness for the trailing-newline theorem: a markup file without a final
newline is updated and the result still lacks a final newline. -/
theorem trailing_newline_preserved_witness :
    (fun p => if p = "a.yaml".data then
        some ("# depup package=p\nv: 1.0.0".data) else none : Fs)
      ("a.yaml".data) = some ("# depup package=p\nv: 1.0.0".data) ∧
    (∀ l ∈ splitRaw ("# depup package=p\nv: 1.0.0".data),
      endsWith '\r' l = false) ∧
    (∀ pk ∈ ([⟨"p".data, "2.0.0".data⟩] : List Package),
      pk.version ≠ [] ∧ '\n' ∉ pk.version) ∧
    (∃ out upd fs',
      updateFile .yaml
        (fun p => if p = "a.yaml".data then
          some ("# depup package=p\nv: 1.0.0".data) else none)
        ("a.yaml".data) [⟨"p".data, "2.0.0".data⟩] ⟨false⟩ =
        some ((out, upd), fs') ∧
      endsWith '\n' out = endsWith '\n' ("# depup package=p\nv: 1.0.0".data) ∧
      ∃ w, fs' ("a.yaml".data) = some w ∧
        endsWith '\n' w = endsWith '\n' ("# depup package=p\nv: 1.0.0".data)) :=
  ⟨by decide, by decide, by decide,
    trailing_newline_preserved _ _ _ _ _ (by decide) (by decide) (by decide)⟩

end Depup
